import Mathlib

/-!
Verification development for the Spectra section-assignment core
(spectra/analyser/sections/sections.py and spectra/analyser/utils/frequency.py).

The Python code is shallowly embedded: pixel coordinates are modelled by
integers (the spec fixes bounding boxes in integer page-image space), line
sizes and frequencies by exact rationals, Python dicts by association lists
with overwrite-on-insert semantics, and Python exceptions by an explicit
`Except` result.

The Qt primitive QLineF.intersects used by segment_intersects_rect computes,
for the segment pair (p1→p2, q1→q2) with a = p2 - p1, b = q1 - q2,
c = p1 - q1:
  denominator d = a.y*b.x - a.x*b.y   (NoIntersection when d = 0),
  na = (b.y*c.x - b.x*c.y) / d,
  nb = (a.x*c.y - a.y*c.x) / d,
and reports BoundedIntersection exactly when 0 ≤ na ≤ 1 and 0 ≤ nb ≤ 1.
Over exact arithmetic, na and nb lie in [0, 1] iff their numerators lie
between 0 and d (with the inequalities flipped when d < 0); the executable
definition below uses that division-free form, and the theorem
`boundedIntersection_iff_cross` proves it equivalent to the rational-valued
parametric characterisation with the division carried out.
-/

/-- A 2-D point, as the (x, y) tuples used throughout sections.py. -/
abbrev Point : Type := ℤ × ℤ

/-- An axis-aligned box (x1, y1, x2, y2), used both for detection bounding
boxes and for section bounding boxes. -/
structure BB where
  x1 : ℤ
  y1 : ℤ
  x2 : ℤ
  y2 : ℤ
deriving DecidableEq, Repr

/-- Membership of a point in a box, all four edges inclusive. -/
def BB.contains (b : BB) (p : Point) : Prop :=
  b.x1 ≤ p.1 ∧ p.1 ≤ b.x2 ∧ b.y1 ≤ p.2 ∧ p.2 ≤ b.y2

instance (b : BB) (p : Point) : Decidable (b.contains p) := by
  unfold BB.contains; infer_instance

/-- Polyline: ordered points plus the page the stroke was drawn on
(sections.py, class Polyline). -/
structure Polyline where
  points : List Point
  page : ℤ
deriving DecidableEq, Repr

/-! ## Geometry kernel (sections.py: segment_intersects_rect, polyline_intersects_bbox) -/

/-- Qt denominator d for the segment pair (p1→p2, q1→q2). -/
def qtD (p1 p2 q1 q2 : Point) : ℤ :=
  (p2.2 - p1.2) * (q1.1 - q2.1) - (p2.1 - p1.1) * (q1.2 - q2.2)

/-- Numerator of Qt parameter na (the parameter along p1→p2). -/
def qtNaNum (p1 p2 q1 q2 : Point) : ℤ :=
  (q1.2 - q2.2) * (p1.1 - q1.1) - (q1.1 - q2.1) * (p1.2 - q1.2)

/-- Numerator of Qt parameter nb (the parameter along q1→q2). -/
def qtNbNum (p1 p2 q1 q2 : Point) : ℤ :=
  (p2.1 - p1.1) * (p1.2 - q1.2) - (p2.2 - p1.2) * (p1.1 - q1.1)

/-- QLineF.intersects(p1→p2, q1→q2) reports BoundedIntersection: the lines
are not parallel (d ≠ 0) and both parameters na = naNum / d and
nb = nbNum / d lie in [0, 1], stated division-free by a sign split on d. -/
def boundedIntersection (p1 p2 q1 q2 : Point) : Bool :=
  let d := qtD p1 p2 q1 q2
  let na := qtNaNum p1 p2 q1 q2
  let nb := qtNbNum p1 p2 q1 q2
  decide ((0 < d ∧ 0 ≤ na ∧ na ≤ d ∧ 0 ≤ nb ∧ nb ≤ d) ∨
          (d < 0 ∧ d ≤ na ∧ na ≤ 0 ∧ d ≤ nb ∧ nb ≤ 0))

/-- The mathematical reading of BoundedIntersection: the two segment carriers
are not parallel, and a common point p1 + t·(p2-p1) = q1 + u·(q2-q1) exists
with both parameters in [0, 1]. -/
def boundedCross (p1 p2 q1 q2 : Point) : Prop :=
  qtD p1 p2 q1 q2 ≠ 0 ∧
  ∃ t u : ℚ, 0 ≤ t ∧ t ≤ 1 ∧ 0 ≤ u ∧ u ≤ 1 ∧
    (p1.1 : ℚ) + t * ((p2.1 : ℚ) - (p1.1 : ℚ)) =
      (q1.1 : ℚ) + u * ((q2.1 : ℚ) - (q1.1 : ℚ)) ∧
    (p1.2 : ℚ) + t * ((p2.2 : ℚ) - (p1.2 : ℚ)) =
      (q1.2 : ℚ) + u * ((q2.2 : ℚ) - (q1.2 : ℚ))

/-- The four rectangle edges built by segment_intersects_rect, in source
order: top, right, bottom, left. -/
def rectEdges (x1 y1 x2 y2 : ℤ) : List (Point × Point) :=
  [((x1, y1), (x2, y1)), ((x2, y1), (x2, y2)),
   ((x2, y2), (x1, y2)), ((x1, y2), (x1, y1))]

/-- sections.py segment_intersects_rect: bounded intersection with one of the
four edges, else inclusive endpoint containment. -/
def segment_intersects_rect (p1 p2 : Point) (x1 y1 x2 y2 : ℤ) : Bool :=
  (rectEdges x1 y1 x2 y2).any (fun e => boundedIntersection p1 p2 e.1 e.2) ||
  decide (x1 ≤ p1.1 ∧ p1.1 ≤ x2 ∧ y1 ≤ p1.2 ∧ p1.2 ≤ y2) ||
  decide (x1 ≤ p2.1 ∧ p2.1 ≤ x2 ∧ y1 ≤ p2.2 ∧ p2.2 ≤ y2)

/-- Consecutive segments of a point list: the pairs (points[i], points[i+1]). -/
def polylineSegs : List Point → List (Point × Point)
  | p :: q :: rest => (p, q) :: polylineSegs (q :: rest)
  | _ => []

/-- sections.py polyline_intersects_bbox. -/
def polyline_intersects_bbox (points : List Point) (bbox : BB) : Bool :=
  if points.length < 2 then false
  else (polylineSegs points).any
    (fun s => segment_intersects_rect s.1 s.2 bbox.x1 bbox.y1 bbox.x2 bbox.y2)

/-! ## Section model (sections.py, class Section)

The Python _bbox_cache / _last_polyline_count pair is carried explicitly;
get_bounding_box is state-passing because the source memoizes into the
object.  QColor values are modelled as opaque strings. -/

structure Section where
  name : String
  line_size : Option ℚ
  polylines : List Polyline
  color : String
  bbox_cache : Option BB
  last_polyline_count : ℕ
deriving DecidableEq, Repr

/-- Raw bounding box of a polyline list: running min/max over every point of
every polyline, in iteration order; none when there are no points (the
min_x == inf case of the source). -/
def computeBBox (polys : List Polyline) : Option BB :=
  match polys.flatMap Polyline.points with
  | [] => none
  | p :: rest =>
    some (rest.foldl
      (fun acc q => ⟨min acc.x1 q.1, min acc.y1 q.2, max acc.x2 q.1, max acc.y2 q.2⟩)
      ⟨p.1, p.2, p.1, p.2⟩)

/-- Section.get_bounding_box: returns the cached box when the cache is set
and the stored polyline count matches, otherwise recomputes and stores.
Returns the updated section together with the box. -/
def Section.get_bounding_box (s : Section) : Section × Option BB :=
  if s.polylines.isEmpty then (s, none)
  else if s.bbox_cache.isSome ∧ s.last_polyline_count = s.polylines.length then
    (s, s.bbox_cache)
  else
    let bb := computeBBox s.polylines
    ({ s with bbox_cache := bb, last_polyline_count := s.polylines.length }, bb)

/-- The value get_bounding_box returns (ignoring the memo write). -/
def Section.bboxValue (s : Section) : Option BB :=
  s.get_bounding_box.2

/-- Section.invalidate_cache. -/
def Section.invalidate_cache (s : Section) : Section :=
  { s with bbox_cache := none, last_polyline_count := 0 }

/-- An in-place mutation of the polylines list (e.g. editing a stroke's point
list through the list object), which in Python touches neither _bbox_cache
nor _last_polyline_count. -/
def Section.setPolylinesInPlace (s : Section) (ps : List Polyline) : Section :=
  { s with polylines := ps }

/-- Rewrite every polyline of a section onto page k, leaving all geometry,
names and caches unchanged. -/
def Section.setAllPages (s : Section) (k : ℤ) : Section :=
  { s with polylines := s.polylines.map (fun pl => { pl with page := k }) }

/-! ## Python dict helpers

Association lists with first-match lookup and overwrite-or-append insert,
matching dict assignment and dict.get. -/

def dictGet {α β : Type} [DecidableEq α] : List (α × β) → α → Option β
  | [], _ => none
  | (k, v) :: rest, k' => if k' = k then some v else dictGet rest k'

def dictInsert {α β : Type} [DecidableEq α] : List (α × β) → α → β → List (α × β)
  | [], k, v => [(k, v)]
  | (k0, v0) :: rest, k, v =>
    if k0 = k then (k0, v) :: rest else (k0, v0) :: dictInsert rest k v

/-- dict.get on a Dict[str, Optional[BB]]: absent keys and stored None both
come back as none. -/
def dictGetFlat {α : Type} [DecidableEq α] (m : List (α × Option BB)) (k : α) : Option BB :=
  (dictGet m k).join

/-- The dict comprehension building section_bbox_cache: name ↦ get_bounding_box
value, later sections overwriting earlier ones with the same name. -/
def buildBBoxDict (sections : List Section) : List (String × Option BB) :=
  sections.foldl (fun m s => dictInsert m s.name s.bboxValue) []

/-! ## Section assignment (sections.py, get_section_for_bbox_optimized) -/

/-- Overlap test of the detection box with a section bounding box, as in the
source: not (x2 < sx1 or x1 > sx2 or y2 < sy1 or y1 > sy2). -/
def bbOverlap (bbox sb : BB) : Bool :=
  !(decide (bbox.x2 < sb.x1) || decide (bbox.x1 > sb.x2) ||
    decide (bbox.y2 < sb.y1) || decide (bbox.y1 > sb.y2))

/-- Whether some polyline of the section intersects the bbox (the detailed
test of the source; pages are not consulted). -/
def sectionHit (s : Section) (bbox : BB) : Bool :=
  s.polylines.any (fun pl => polyline_intersects_bbox pl.points bbox)

/-- The body of get_section_for_bbox_optimized: scan the given section order,
skipping a section when its cached bounding box exists and does not overlap
the detection bbox. -/
def sectionScan (bbox : BB) (cache : List (String × Option BB)) : List Section → String
  | [] => "Unassigned"
  | s :: rest =>
    let hit :=
      match dictGetFlat cache s.name with
      | some sb => if bbOverlap bbox sb then sectionHit s bbox else false
      | none => sectionHit s bbox
    if hit then s.name else sectionScan bbox cache rest

/-- sections.py get_section_for_bbox_optimized: uses the provided bbox cache
or computes one from the list, then scans the sections in reverse order. -/
def get_section_for_bbox_optimized (bbox : BB) (sections : List Section)
    (cache? : Option (List (String × Option BB))) : String :=
  sectionScan bbox (cache?.getD (buildBBoxDict sections)) sections.reverse

/-- sections.py get_section_for_bbox. -/
def get_section_for_bbox (bbox : BB) (sections : List Section) : String :=
  get_section_for_bbox_optimized bbox sections none

/-- Modelled from the spec: the unoptimized full scan the spec compares
against — polyline_intersects_bbox on every polyline of every section in the
same reverse order, with no bounding-box pre-filter. -/
def bruteScan (bbox : BB) : List Section → String
  | [] => "Unassigned"
  | s :: rest => if sectionHit s bbox then s.name else bruteScan bbox rest

/-- Modelled from the spec: brute-force assignment without the pre-filter. -/
def get_section_for_bbox_brute (bbox : BB) (sections : List Section) : String :=
  bruteScan bbox sections.reverse

/-- Disjointness of the section box from the detection box, as the negation
of the source overlap test. -/
def bbDisjoint (bbox sb : BB) : Prop :=
  bbox.x2 < sb.x1 ∨ bbox.x1 > sb.x2 ∨ bbox.y2 < sb.y1 ∨ bbox.y1 > sb.y2

/-- Soundness of a section's reported bounding box: whatever box
get_bounding_box would return contains every current polyline point.  A
freshly recomputed box always satisfies this; a stale cached box need not. -/
def Section.cacheOK (s : Section) : Prop :=
  ∀ bb, s.bboxValue = some bb → ∀ pl ∈ s.polylines, ∀ p ∈ pl.points, bb.contains p

/-! ## Detections, the window state, and assign_objects_to_sections

Detection models detection/types.py (class Detection); the window state
carries the attributes of the main window that sections.py reads and
writes: detections, sections_list, _section_assignment_cache,
_last_sections_hash and _last_detections_hash.  Python hash values of the
fingerprint tuples are modelled by the tuples themselves (equal tuples hash
equal within a run); the None sentinel of an absent hash is Option.none. -/

structure Detection where
  name : String
  bbox : BB
  page_num : ℤ
  section_name : String
  color : Option String
  line_size : Option ℚ
  count : ℕ
deriving DecidableEq, Repr

/-- The cache key (det.bbox, getattr(det, page_num, 0)). -/
def detKey (d : Detection) : BB × ℤ := (d.bbox, d.page_num)

/-- The sections fingerprint: tuple of (name, polyline count) in list order. -/
def sectionsFingerprint (l : List Section) : List (String × ℕ) :=
  l.map (fun s => (s.name, s.polylines.length))

/-- The detections fingerprint: tuple of (bbox, page) in list order. -/
def detectionsFingerprint (l : List Detection) : List (BB × ℤ) :=
  l.map detKey

structure Window where
  detections : List Detection
  sections_list : List Section
  assignment_cache : List ((BB × ℤ) × (String × Option String))
  last_sections_hash : Option (List (String × ℕ))
  last_detections_hash : Option (List (BB × ℤ))
deriving DecidableEq, Repr

/-- The section name → color dict of assign_objects_to_sections. -/
def buildColorDict (sections : List Section) : List (String × String) :=
  sections.foldl (fun m s => dictInsert m s.name s.color) []

/-- The (section_name, color) pair computed for one bounding box during the
recompute sweep. -/
def assignValue (sections : List Section) (bbCache : List (String × Option BB))
    (colors : List (String × String)) (bbox : BB) : String × Option String :=
  let n := get_section_for_bbox_optimized bbox sections (some bbCache)
  (n, dictGet colors n)

/-- The cache repopulated by the recompute sweep: key (bbox, page) mapped to
the (section_name, color) computed for that bbox. -/
def buildAssignCache (dets : List Detection) (sections : List Section)
    (bbCache : List (String × Option BB)) (colors : List (String × String)) :
    List ((BB × ℤ) × (String × Option String)) :=
  dets.foldl (fun c d => dictInsert c (detKey d) (assignValue sections bbCache colors d.bbox)) []

/-- Application of a cached (section_name, color) pair to one detection;
a key miss leaves the detection untouched. -/
def applyCached (cache : List ((BB × ℤ) × (String × Option String))) (d : Detection) :
    Detection :=
  match dictGet cache (detKey d) with
  | some nc => { d with section_name := nc.1, color := nc.2 }
  | none => d

/-- Re-assignment of one detection during the recompute sweep. -/
def reassignDet (sections : List Section) (bbCache : List (String × Option BB))
    (colors : List (String × String)) (d : Detection) : Detection :=
  { d with section_name := (assignValue sections bbCache colors d.bbox).1,
           color := (assignValue sections bbCache colors d.bbox).2 }

/-- The cache-validity condition of assign_objects_to_sections: both stored
fingerprints match the fresh ones and the cache dict is non-empty (Python
dict truthiness). -/
def cacheFresh (w : Window) : Prop :=
  w.last_sections_hash = some (sectionsFingerprint w.sections_list) ∧
  w.last_detections_hash = some (detectionsFingerprint w.detections) ∧
  w.assignment_cache ≠ []

instance (w : Window) : Decidable (cacheFresh w) := by
  unfold cacheFresh; infer_instance

/-- sections.py assign_objects_to_sections.  When both fingerprints match the
stored ones and the cache is non-empty, cached (section, color) pairs are
applied to each detection whose key is present (missing keys leave the
detection untouched); otherwise the cache is cleared, every detection is
re-assigned with the bounding-box pre-filter, and cache and fingerprints are
repopulated. -/
def assign_objects_to_sections : Window → Window
  | ⟨dets, secs, cache, lsh, ldh⟩ =>
    if cacheFresh ⟨dets, secs, cache, lsh, ldh⟩ then
      ⟨dets.map (applyCached cache), secs, cache, lsh, ldh⟩
    else
      let bbCache := buildBBoxDict secs
      let colors := buildColorDict secs
      ⟨dets.map (reassignDet secs bbCache colors), secs,
       buildAssignCache dets secs bbCache colors,
       some (sectionsFingerprint secs), some (detectionsFingerprint dets)⟩

/-- sections.py invalidate_section_assignment_cache. -/
def invalidate_section_assignment_cache (w : Window) : Window :=
  { w with assignment_cache := [],
           last_sections_hash := none,
           last_detections_hash := none }

/-- Concrete section whose single polyline lies on page 2. -/
def pageSec : Section := ⟨"S", none, [⟨[(0, 0), (10, 10)], 2⟩], "red", none, 0⟩

/-- Concrete detection on page 1 whose bbox geometrically crosses pageSec. -/
def pageDet : Detection := ⟨"valve", ⟨0, 0, 5, 5⟩, 1, "Unassigned", none, none, 1⟩

/-- Window holding the page-mismatch pair. -/
def pageWindow : Window := ⟨[pageDet], [pageSec], [], none, none⟩

/-- Section used by the C4 counterexample, before any call. -/
def staleSec0 : Section := ⟨"S", none, [⟨[(0, 0), (1, 1)], 1⟩], "red", none, 0⟩

/-- The same section after one get_bounding_box call has filled the cache. -/
def staleSec1 : Section := staleSec0.get_bounding_box.1

/-- The cached section after an in-place edit of its single polyline that
keeps the polyline count at 1 (Python: mutating the list entries without
touching _bbox_cache or _last_polyline_count). -/
def staleSec2 : Section := staleSec1.setPolylinesInPlace [⟨[(10, 10), (20, 20)], 1⟩]

/-! ## Frequency aggregation (utils/frequency.py)

FrequencyTable rows carry the category string and the numeric columns; the
five hole-size columns are the ordered keys of HOLE_SIZE_COLS.  Python
exceptions are modelled by PyErr: TypeError for the float-vs-None comparison
raised inside lookup, ValueError for the error re-raised by the summation
loop (whose message, the str of the underlying TypeError, never mentions the
category).  The external category mapping get_frequency_category is a
parameter catOf, as the spec designates category mapping an external
collaborator consulted by the aggregation. -/

/-- Python str.strip() (whitespace from both ends). -/
def pyStrip (s : String) : String :=
  String.mk (((s.data.dropWhile Char.isWhitespace).reverse.dropWhile Char.isWhitespace).reverse)

structure FreqRow where
  category : String
  min_size_mm : ℚ
  max_size_mm : ℚ
  tiny : ℚ
  small : ℚ
  medium : ℚ
  large : ℚ
  fbr : ℚ
deriving DecidableEq, Repr

inductive PyErr where
  | typeError : PyErr
  | valueError : String → PyErr
deriving DecidableEq, Repr

deriving instance DecidableEq for Except

/-- The candidate rows of lookup: rows whose stripped Category equals the
category; a None category matches nothing (str == None is False). -/
def candidatesFor (rows : List FreqRow) (category : Option String) : List FreqRow :=
  rows.filter (fun r =>
    match category with
    | some c => pyStrip r.category == c
    | none => false)

/-- Python max(candidates, key=max_size_mm): the first row attaining the
maximal max_size_mm (later rows replace only on strictly greater key). -/
def pyMaxBySize : FreqRow → List FreqRow → FreqRow
  | best, [] => best
  | best, r :: rest => pyMaxBySize (if best.max_size_mm < r.max_size_mm then r else best) rest

/-- frequency.py FrequencyTable.lookup.  No candidates: returns None.  A
None line size with candidates present raises TypeError at the first range
comparison.  Otherwise: the first candidate whose [min,max] contains the
size, else the candidate with the largest max_size_mm. -/
def FrequencyTable.lookup (rows : List FreqRow) (category : Option String)
    (line_size : Option ℚ) : Except PyErr (Option FreqRow) :=
  match candidatesFor rows category with
  | [] => .ok none
  | c0 :: crest =>
    match line_size with
    | none => .error .typeError
    | some v =>
      match (c0 :: crest).find?
          (fun r => decide (r.min_size_mm ≤ v) && decide (v ≤ r.max_size_mm)) with
      | some r => .ok (some r)
      | none => .ok (some (pyMaxBySize c0 crest))

/-- The running freq_sums dict (one field per HOLE_SIZE_COLS entry). -/
structure Freqs where
  tiny : ℚ
  small : ℚ
  medium : ℚ
  large : ℚ
  fbr : ℚ
deriving DecidableEq, Repr

def Freqs.zero : Freqs := ⟨0, 0, 0, 0, 0⟩

/-- freq_sums[col] += float(row[col]) * count, for all five columns. -/
def Freqs.addScaled (a : Freqs) (r : FreqRow) (count : ℕ) : Freqs :=
  ⟨a.tiny + r.tiny * count, a.small + r.small * count, a.medium + r.medium * count,
   a.large + r.large * count, a.fbr + r.fbr * count⟩

/-- total = sum(freq_sums.values()). -/
def Freqs.total (a : Freqs) : ℚ := a.tiny + a.small + a.medium + a.large + a.fbr

/-- The message of the ValueError raised when row is None: the wrapped str
of the TypeError from subscripting None.  It does not mention the category. -/
def noneSubscriptMsg : String := "Error adding frequency: NoneType object is not subscriptable"

/-- Processing of one detection inside the per-section loop: resolve the
category via the external mapping, resolve the effective line size
(override, else the section default), look the row up, and accumulate; a
None row raises the ValueError above; a lookup TypeError propagates. -/
def processDet (rows : List FreqRow) (catOf : String → Option String) (sec : Section)
    (acc : Freqs) (d : Detection) : Except PyErr Freqs :=
  match FrequencyTable.lookup rows (catOf d.name)
      (match d.line_size with | some v => some v | none => sec.line_size) with
  | .error e => .error e
  | .ok none => .error (.valueError noneSubscriptMsg)
  | .ok (some r) => .ok (acc.addScaled r d.count)

/-- Left fold in the Except monad: the Python for-loop, stopping at the
first raised exception. -/
def exceptFoldl {α β ε : Type} (step : β → α → Except ε β) : β → List α → Except ε β
  | acc, [] => .ok acc
  | acc, a :: rest =>
    match step acc a with
    | .error e => .error e
    | .ok acc' => exceptFoldl step acc' rest

/-- Map in the Except monad: the Python result-building loop. -/
def exceptMapM {α β ε : Type} (f : α → Except ε β) : List α → Except ε (List β)
  | [] => .ok []
  | a :: rest =>
    match f a with
    | .error e => .error e
    | .ok b =>
      match exceptMapM f rest with
      | .error e => .error e
      | .ok bs => .ok (b :: bs)

/-- One output row: the dict with keys section, tiny, ..., fbr, total. -/
structure ResultRow where
  sect : String
  tiny : ℚ
  small : ℚ
  medium : ℚ
  large : ℚ
  fbr : ℚ
  total : ℚ
deriving DecidableEq, Repr

/-- The section_map dict comprehension: name → Section, later sections with
the same name overwriting earlier ones, keys in first-occurrence order. -/
def sectionMapEntries (sections : List Section) : List (String × Section) :=
  sections.foldl (fun m s => dictInsert m s.name s) []

/-- The per-section body of calculate_section_frequencies: group the
detections by section_name (defaultdict grouping preserves detection
order), accumulate, and build the output row. -/
def processSection (rows : List FreqRow) (catOf : String → Option String)
    (dets : List Detection) : String × Section → Except PyErr ResultRow
  | (nm, sec) =>
    match exceptFoldl (processDet rows catOf sec) Freqs.zero
        (dets.filter (fun d => d.section_name == nm)) with
    | .error e => .error e
    | .ok f => .ok ⟨nm, f.tiny, f.small, f.medium, f.large, f.fbr, f.total⟩

/-- frequency.py calculate_section_frequencies. -/
def calculate_section_frequencies (sections : List Section) (dets : List Detection)
    (rows : List FreqRow) (catOf : String → Option String) :
    Except PyErr (List ResultRow) :=
  exceptMapM (processSection rows catOf dets) (sectionMapEntries sections)

/-- The two-bracket Manual Valves table of the spec scenario. -/
def mvRows : List FreqRow :=
  [⟨"Manual Valves", 0, 20, 1, 2, 3, 4, 5⟩, ⟨"Manual Valves", 20, 50, 6, 7, 8, 9, 10⟩]

/-- Identity category mapping used by the concrete aggregation runs. -/
def catIdentity : String → Option String := fun n => some n

/-- Category mapping sending every label to Manual Valves. -/
def catMV : String → Option String := fun _ => some "Manual Valves"

def c7Sec : Section := ⟨"P", some 10, [], "red", none, 0⟩

def c7DetFoo : Detection := ⟨"foo", ⟨0, 0, 1, 1⟩, 1, "P", none, none, 1⟩

def c7DetBar : Detection := ⟨"bar", ⟨0, 0, 1, 1⟩, 1, "P", none, none, 1⟩

def c7Rows : List FreqRow := [⟨"Manual Valves", 0, 20, 1, 1, 1, 1, 1⟩]

def c10Sec : Section := ⟨"P", none, [], "red", none, 0⟩

def c10Det : Detection := ⟨"x", ⟨0, 0, 1, 1⟩, 1, "P", none, none, 1⟩

/-! ## C8: aggregation conservation -/

/-- The contribution of one detection given its grouping section: the sum of
the five looked-up hole-size bucket frequencies times the count, and 0 in
the error cases (which cannot occur in a successful call). -/
def contribWith (rows : List FreqRow) (catOf : String → Option String)
    (sec : Section) (d : Detection) : ℚ :=
  match FrequencyTable.lookup rows (catOf d.name)
      (match d.line_size with | some v => some v | none => sec.line_size) with
  | .ok (some r) => (r.tiny + r.small + r.medium + r.large + r.fbr) * d.count
  | _ => 0

/-- The contribution of a detection, resolving its grouping section from the
section map; 0 when its section name matches no section. -/
def detContrib (rows : List FreqRow) (catOf : String → Option String)
    (sections : List Section) (d : Detection) : ℚ :=
  match dictGet (sectionMapEntries sections) d.section_name with
  | none => 0
  | some sec => contribWith rows catOf sec d

/-- Concrete successful aggregation for the C8 witness: one section, two
grouped detections with count 2 and 1, one stray detection. -/
def c8Sec : Section := ⟨"P", some 10, [], "red", none, 0⟩

def c8Det1 : Detection := ⟨"mv", ⟨0, 0, 1, 1⟩, 1, "P", none, none, 2⟩

def c8Det2 : Detection := ⟨"mv", ⟨1, 1, 2, 2⟩, 1, "P", none, some 25, 1⟩

def c8DetStray : Detection := ⟨"mv", ⟨2, 2, 3, 3⟩, 1, "Unassigned", none, none, 1⟩

/-! ## Theorems -/

example : get_section_for_bbox ⟨40, -5, 60, 5⟩
    [⟨"Header", none, [⟨[(0, 0), (100, 0)], 1⟩], "c0", none, 0⟩] = "Header" := by decide

example : get_section_for_bbox ⟨200, 200, 210, 210⟩
    [⟨"Header", none, [⟨[(0, 0), (100, 0)], 1⟩], "c0", none, 0⟩] = "Unassigned" := by decide

/-! ## Geometry lemmas -/

/-- The x-coordinate meet identity: substituting the Qt parameters into the
two parametric forms of the intersection point gives the same x value. -/
lemma qt_meet_x (p1 p2 q1 q2 : Point) (hd : qtD p1 p2 q1 q2 ≠ 0) :
    (p1.1 : ℚ) + (qtNaNum p1 p2 q1 q2 : ℚ) / (qtD p1 p2 q1 q2 : ℚ) * ((p2.1 : ℚ) - (p1.1 : ℚ)) =
      (q1.1 : ℚ) + (qtNbNum p1 p2 q1 q2 : ℚ) / (qtD p1 p2 q1 q2 : ℚ) * ((q2.1 : ℚ) - (q1.1 : ℚ)) := by
  have hne : ((qtD p1 p2 q1 q2 : ℤ) : ℚ) ≠ 0 := Int.cast_ne_zero.mpr hd
  field_simp
  simp only [qtNaNum, qtNbNum, qtD]
  push_cast
  ring

/-- The y-coordinate meet identity. -/
lemma qt_meet_y (p1 p2 q1 q2 : Point) (hd : qtD p1 p2 q1 q2 ≠ 0) :
    (p1.2 : ℚ) + (qtNaNum p1 p2 q1 q2 : ℚ) / (qtD p1 p2 q1 q2 : ℚ) * ((p2.2 : ℚ) - (p1.2 : ℚ)) =
      (q1.2 : ℚ) + (qtNbNum p1 p2 q1 q2 : ℚ) / (qtD p1 p2 q1 q2 : ℚ) * ((q2.2 : ℚ) - (q1.2 : ℚ)) := by
  have hne : ((qtD p1 p2 q1 q2 : ℤ) : ℚ) ≠ 0 := Int.cast_ne_zero.mpr hd
  field_simp
  simp only [qtNaNum, qtNbNum, qtD]
  push_cast
  ring

/-- The division-free executable form of the Qt BoundedIntersection test
agrees with the rational parametric characterisation. -/
theorem boundedIntersection_iff_cross (p1 p2 q1 q2 : Point) :
    boundedIntersection p1 p2 q1 q2 = true ↔ boundedCross p1 p2 q1 q2 := by
  simp only [boundedIntersection, boundedCross, decide_eq_true_eq]
  constructor
  · rintro (⟨hd, hna0, hnad, hnb0, hnbd⟩ | ⟨hd, hdna, hna0, hdnb, hnb0⟩)
    · have hdQ : (0 : ℚ) < (qtD p1 p2 q1 q2 : ℚ) := by exact_mod_cast hd
      exact ⟨hd.ne.symm,
        (qtNaNum p1 p2 q1 q2 : ℚ) / (qtD p1 p2 q1 q2 : ℚ),
        (qtNbNum p1 p2 q1 q2 : ℚ) / (qtD p1 p2 q1 q2 : ℚ),
        div_nonneg (by exact_mod_cast hna0) hdQ.le,
        (div_le_one hdQ).mpr (by exact_mod_cast hnad),
        div_nonneg (by exact_mod_cast hnb0) hdQ.le,
        (div_le_one hdQ).mpr (by exact_mod_cast hnbd),
        qt_meet_x p1 p2 q1 q2 hd.ne.symm, qt_meet_y p1 p2 q1 q2 hd.ne.symm⟩
    · have hdQ : (qtD p1 p2 q1 q2 : ℚ) < 0 := by exact_mod_cast hd
      refine ⟨hd.ne,
        (qtNaNum p1 p2 q1 q2 : ℚ) / (qtD p1 p2 q1 q2 : ℚ),
        (qtNbNum p1 p2 q1 q2 : ℚ) / (qtD p1 p2 q1 q2 : ℚ),
        ?_, ?_, ?_, ?_, qt_meet_x p1 p2 q1 q2 hd.ne, qt_meet_y p1 p2 q1 q2 hd.ne⟩
      · rw [← neg_div_neg_eq]
        refine div_nonneg ?_ ?_ <;> simp only [neg_nonneg, Left.nonneg_neg_iff]
        · exact_mod_cast hna0
        · exact hdQ.le
      · rw [← neg_div_neg_eq]
        refine (div_le_one ?_).mpr ?_
        · simpa using hdQ
        · have : -(qtNaNum p1 p2 q1 q2 : ℚ) ≤ -(qtD p1 p2 q1 q2 : ℚ) := by
            have : (qtD p1 p2 q1 q2 : ℚ) ≤ (qtNaNum p1 p2 q1 q2 : ℚ) := by exact_mod_cast hdna
            linarith
          exact this
      · rw [← neg_div_neg_eq]
        refine div_nonneg ?_ ?_ <;> simp only [neg_nonneg, Left.nonneg_neg_iff]
        · exact_mod_cast hnb0
        · exact hdQ.le
      · rw [← neg_div_neg_eq]
        refine (div_le_one ?_).mpr ?_
        · simpa using hdQ
        · have : (qtD p1 p2 q1 q2 : ℚ) ≤ (qtNbNum p1 p2 q1 q2 : ℚ) := by exact_mod_cast hdnb
          linarith
  · rintro ⟨hd, t, u, ht0, ht1, hu0, hu1, hx, hy⟩
    have htd : t * (qtD p1 p2 q1 q2 : ℚ) = (qtNaNum p1 p2 q1 q2 : ℚ) := by
      simp only [qtNaNum, qtD]
      push_cast
      linear_combination ((q2.2 : ℚ) - (q1.2 : ℚ)) * hx - ((q2.1 : ℚ) - (q1.1 : ℚ)) * hy
    have hud : u * (qtD p1 p2 q1 q2 : ℚ) = (qtNbNum p1 p2 q1 q2 : ℚ) := by
      simp only [qtNbNum, qtD]
      push_cast
      linear_combination ((p2.2 : ℚ) - (p1.2 : ℚ)) * hx - ((p2.1 : ℚ) - (p1.1 : ℚ)) * hy
    rcases lt_or_gt_of_ne hd with hneg | hpos
    · have hdQ : (qtD p1 p2 q1 q2 : ℚ) < 0 := by exact_mod_cast hneg
      refine Or.inr ⟨hneg, ?_, ?_, ?_, ?_⟩
      · have h : (qtD p1 p2 q1 q2 : ℚ) ≤ (qtNaNum p1 p2 q1 q2 : ℚ) := by nlinarith
        exact_mod_cast h
      · have h : (qtNaNum p1 p2 q1 q2 : ℚ) ≤ 0 := by nlinarith
        exact_mod_cast h
      · have h : (qtD p1 p2 q1 q2 : ℚ) ≤ (qtNbNum p1 p2 q1 q2 : ℚ) := by nlinarith
        exact_mod_cast h
      · have h : (qtNbNum p1 p2 q1 q2 : ℚ) ≤ 0 := by nlinarith
        exact_mod_cast h
    · have hdQ : (0 : ℚ) < (qtD p1 p2 q1 q2 : ℚ) := by exact_mod_cast hpos
      refine Or.inl ⟨hpos, ?_, ?_, ?_, ?_⟩
      · have h : (0 : ℚ) ≤ (qtNaNum p1 p2 q1 q2 : ℚ) := by nlinarith
        exact_mod_cast h
      · have h : (qtNaNum p1 p2 q1 q2 : ℚ) ≤ (qtD p1 p2 q1 q2 : ℚ) := by nlinarith
        exact_mod_cast h
      · have h : (0 : ℚ) ≤ (qtNbNum p1 p2 q1 q2 : ℚ) := by nlinarith
        exact_mod_cast h
      · have h : (qtNbNum p1 p2 q1 q2 : ℚ) ≤ (qtD p1 p2 q1 q2 : ℚ) := by nlinarith
        exact_mod_cast h

/-- A convex combination a + t(b - a), t ∈ [0,1], stays above any common
lower bound of a and b. -/
lemma convex_lb {t a b L : ℚ} (ht0 : 0 ≤ t) (ht1 : t ≤ 1)
    (ha : L ≤ a) (hb : L ≤ b) : L ≤ a + t * (b - a) := by nlinarith

/-- A convex combination a + t(b - a), t ∈ [0,1], stays below any common
upper bound of a and b. -/
lemma convex_ub {t a b U : ℚ} (ht0 : 0 ≤ t) (ht1 : t ≤ 1)
    (ha : a ≤ U) (hb : b ≤ U) : a + t * (b - a) ≤ U := by nlinarith

/-- The rational image of a box-membership fact. -/
lemma contains_cast {b : BB} {p : Point} (h : b.contains p) :
    (b.x1 : ℚ) ≤ (p.1 : ℚ) ∧ (p.1 : ℚ) ≤ (b.x2 : ℚ) ∧
    (b.y1 : ℚ) ≤ (p.2 : ℚ) ∧ (p.2 : ℚ) ≤ (b.y2 : ℚ) := by
  obtain ⟨h1, h2, h3, h4⟩ := h
  exact ⟨by exact_mod_cast h1, by exact_mod_cast h2, by exact_mod_cast h3, by exact_mod_cast h4⟩

/-- A bounded crossing of two segments whose endpoints lie in boxes sb and rb
gives a common rational point inside both boxes. -/
lemma boundedCross_common_point {p1 p2 q1 q2 : Point} {sb rb : BB}
    (hp1 : sb.contains p1) (hp2 : sb.contains p2)
    (hq1 : rb.contains q1) (hq2 : rb.contains q2)
    (h : boundedCross p1 p2 q1 q2) :
    ∃ z : ℚ × ℚ,
      ((sb.x1 : ℚ) ≤ z.1 ∧ z.1 ≤ (sb.x2 : ℚ) ∧ (sb.y1 : ℚ) ≤ z.2 ∧ z.2 ≤ (sb.y2 : ℚ)) ∧
      ((rb.x1 : ℚ) ≤ z.1 ∧ z.1 ≤ (rb.x2 : ℚ) ∧ (rb.y1 : ℚ) ≤ z.2 ∧ z.2 ≤ (rb.y2 : ℚ)) := by
  obtain ⟨-, t, u, ht0, ht1, hu0, hu1, hx, hy⟩ := h
  obtain ⟨a1, a2, a3, a4⟩ := contains_cast hp1
  obtain ⟨b1, b2, b3, b4⟩ := contains_cast hp2
  obtain ⟨c1, c2, c3, c4⟩ := contains_cast hq1
  obtain ⟨d1, d2, d3, d4⟩ := contains_cast hq2
  refine ⟨((p1.1 : ℚ) + t * ((p2.1 : ℚ) - (p1.1 : ℚ)),
           (p1.2 : ℚ) + t * ((p2.2 : ℚ) - (p1.2 : ℚ))),
    ⟨convex_lb ht0 ht1 a1 b1, convex_ub ht0 ht1 a2 b2,
     convex_lb ht0 ht1 a3 b3, convex_ub ht0 ht1 a4 b4⟩, ?_⟩
  rw [hx, hy]
  exact ⟨convex_lb hu0 hu1 c1 d1, convex_ub hu0 hu1 c2 d2,
         convex_lb hu0 hu1 c3 d3, convex_ub hu0 hu1 c4 d4⟩

lemma bbOverlap_false_iff (bbox sb : BB) :
    bbOverlap bbox sb = false ↔ bbDisjoint bbox sb := by
  simp only [bbOverlap, bbDisjoint, Bool.not_eq_false', Bool.or_eq_true, decide_eq_true_eq]
  tauto

/-- If a segment lies inside a box disjoint from the detection rectangle,
segment_intersects_rect is false, provided the rectangle is well formed
(x1 ≤ x2, y1 ≤ y2). -/
lemma segment_intersects_rect_false {p1 p2 : Point} {bbox sb : BB}
    (hx12 : bbox.x1 ≤ bbox.x2) (hy12 : bbox.y1 ≤ bbox.y2)
    (hp1 : sb.contains p1) (hp2 : sb.contains p2)
    (hdisj : bbDisjoint bbox sb) :
    segment_intersects_rect p1 p2 bbox.x1 bbox.y1 bbox.x2 bbox.y2 = false := by
  have hz : ∀ q1 q2 : Point, bbox.contains q1 → bbox.contains q2 →
      boundedIntersection p1 p2 q1 q2 = false := by
    intro q1 q2 hq1 hq2
    rw [Bool.eq_false_iff]
    intro hbi
    obtain ⟨z, hzs, hzr⟩ := boundedCross_common_point hp1 hp2 hq1 hq2
      ((boundedIntersection_iff_cross p1 p2 q1 q2).mp hbi)
    rcases hdisj with h | h | h | h
    · have : (bbox.x2 : ℚ) < (sb.x1 : ℚ) := by exact_mod_cast h
      linarith [hzs.1, hzr.2.1]
    · have : (sb.x2 : ℚ) < (bbox.x1 : ℚ) := by exact_mod_cast h
      linarith [hzs.2.1, hzr.1]
    · have : (bbox.y2 : ℚ) < (sb.y1 : ℚ) := by exact_mod_cast h
      linarith [hzs.2.2.1, hzr.2.2.2]
    · have : (sb.y2 : ℚ) < (bbox.y1 : ℚ) := by exact_mod_cast h
      linarith [hzs.2.2.2, hzr.2.2.1]
  have hep : ∀ p : Point, sb.contains p →
      ¬(bbox.x1 ≤ p.1 ∧ p.1 ≤ bbox.x2 ∧ bbox.y1 ≤ p.2 ∧ p.2 ≤ bbox.y2) := by
    intro p hp hin
    obtain ⟨e1, e2, e3, e4⟩ := hp
    rcases hdisj with h | h | h | h <;> omega
  simp only [segment_intersects_rect, rectEdges, List.any_eq_true, Bool.or_eq_false_iff,
    List.any_eq_false, decide_eq_false_iff_not]
  refine ⟨⟨?_, hep p1 hp1⟩, hep p2 hp2⟩
  intro e he
  simp only [List.mem_cons, List.mem_singleton] at he
  have hc : ∀ a b : ℤ, bbox.x1 ≤ a → a ≤ bbox.x2 → bbox.y1 ≤ b → b ≤ bbox.y2 →
      bbox.contains (a, b) := by
    intro a b h1 h2 h3 h4
    exact ⟨h1, h2, h3, h4⟩
  rcases he with rfl | rfl | rfl | rfl | h
  · simpa using hz (bbox.x1, bbox.y1) (bbox.x2, bbox.y1)
      (hc _ _ le_rfl hx12 le_rfl hy12) (hc _ _ hx12 le_rfl le_rfl hy12)
  · simpa using hz (bbox.x2, bbox.y1) (bbox.x2, bbox.y2)
      (hc _ _ hx12 le_rfl le_rfl hy12) (hc _ _ hx12 le_rfl hy12 le_rfl)
  · simpa using hz (bbox.x2, bbox.y2) (bbox.x1, bbox.y2)
      (hc _ _ hx12 le_rfl hy12 le_rfl) (hc _ _ le_rfl hx12 hy12 le_rfl)
  · simpa using hz (bbox.x1, bbox.y2) (bbox.x1, bbox.y1)
      (hc _ _ le_rfl hx12 hy12 le_rfl) (hc _ _ le_rfl hx12 le_rfl hy12)
  · cases h

/-- Both endpoints of a consecutive segment belong to the point list. -/
lemma polylineSegs_mem : ∀ {l : List Point} {a b : Point},
    (a, b) ∈ polylineSegs l → a ∈ l ∧ b ∈ l
  | p :: q :: rest, a, b, h => by
    simp only [polylineSegs, List.mem_cons, Prod.mk.injEq] at h
    rcases h with ⟨rfl, rfl⟩ | h
    · exact ⟨List.mem_cons_self a _, List.mem_cons_of_mem _ (List.mem_cons_self b _)⟩
    · have ih := polylineSegs_mem h
      exact ⟨List.mem_cons_of_mem _ ih.1, List.mem_cons_of_mem _ ih.2⟩

/-- A polyline all of whose points lie in a box disjoint from the (well
formed) detection box never intersects it. -/
lemma polyline_intersects_bbox_false {points : List Point} {bbox sb : BB}
    (hx12 : bbox.x1 ≤ bbox.x2) (hy12 : bbox.y1 ≤ bbox.y2)
    (hpts : ∀ p ∈ points, sb.contains p) (hdisj : bbDisjoint bbox sb) :
    polyline_intersects_bbox points bbox = false := by
  unfold polyline_intersects_bbox
  by_cases hlen : points.length < 2
  · simp [hlen]
  · rw [if_neg hlen, List.any_eq_false]
    rintro ⟨a, b⟩ hab
    obtain ⟨ha, hb⟩ := polylineSegs_mem hab
    simpa using segment_intersects_rect_false hx12 hy12 (hpts a ha) (hpts b hb) hdisj

/-- The step function of the running min/max in computeBBox. -/
lemma foldl_bbExtend_le (f : BB → Point → BB)
    (hf : f = fun acc q => ⟨min acc.x1 q.1, min acc.y1 q.2, max acc.x2 q.1, max acc.y2 q.2⟩) :
    ∀ (l : List Point) (acc : BB),
      (l.foldl f acc).x1 ≤ acc.x1 ∧ (l.foldl f acc).y1 ≤ acc.y1 ∧
      acc.x2 ≤ (l.foldl f acc).x2 ∧ acc.y2 ≤ (l.foldl f acc).y2
  | [], acc => ⟨le_rfl, le_rfl, le_rfl, le_rfl⟩
  | q :: rest, acc => by
    have h := foldl_bbExtend_le f hf rest (f acc q)
    subst hf
    simp only [List.foldl_cons]
    exact ⟨h.1.trans (min_le_left _ _), h.2.1.trans (min_le_left _ _),
      (le_max_left _ _).trans h.2.2.1, (le_max_left _ _).trans h.2.2.2⟩

/-- Every consumed point is inside the running min/max fold result. -/
lemma foldl_bbExtend_contains (f : BB → Point → BB)
    (hf : f = fun acc q => ⟨min acc.x1 q.1, min acc.y1 q.2, max acc.x2 q.1, max acc.y2 q.2⟩) :
    ∀ (l : List Point) (acc : BB) (q : Point), q ∈ l → (l.foldl f acc).contains q
  | q0 :: rest, acc, q, hq => by
    rcases List.mem_cons.mp hq with rfl | hq'
    · have h := foldl_bbExtend_le f hf rest (f acc q)
      rw [List.foldl_cons]
      rw [hf] at h ⊢
      exact ⟨h.1.trans (min_le_right _ _), (le_max_right _ _).trans h.2.2.1,
        h.2.1.trans (min_le_right _ _), (le_max_right _ _).trans h.2.2.2⟩
    · rw [List.foldl_cons]
      exact foldl_bbExtend_contains f hf rest (f acc q0) q hq'

/-- A freshly computed bounding box contains every point of the polylines. -/
lemma computeBBox_contains {polys : List Polyline} {bb : BB}
    (h : computeBBox polys = some bb) :
    ∀ pl ∈ polys, ∀ p ∈ pl.points, bb.contains p := by
  intro pl hpl p hp
  have hmem : p ∈ polys.flatMap Polyline.points := List.mem_flatMap.mpr ⟨pl, hpl, hp⟩
  unfold computeBBox at h
  cases hl : polys.flatMap Polyline.points with
  | nil => rw [hl] at hmem; cases hmem
  | cons p0 rest =>
    rw [hl] at h hmem
    simp only [Option.some.injEq] at h
    subst h
    rcases List.mem_cons.mp hmem with rfl | hmem'
    · have h := foldl_bbExtend_le _ rfl rest ⟨p.1, p.2, p.1, p.2⟩
      exact ⟨h.1, h.2.2.1, h.2.1, h.2.2.2⟩
    · exact foldl_bbExtend_contains _ rfl rest ⟨p0.1, p0.2, p0.1, p0.2⟩ p hmem'

/-- A section whose cache will not be consulted satisfies cacheOK. -/
lemma cacheOK_of_not_cached {s : Section}
    (h : ¬(s.bbox_cache.isSome ∧ s.last_polyline_count = s.polylines.length)) :
    s.cacheOK := by
  intro bb hbb pl hpl p hp
  unfold Section.bboxValue Section.get_bounding_box at hbb
  by_cases he : s.polylines.isEmpty
  · rw [if_pos he] at hbb; cases hbb
  · rw [if_neg he, if_neg h] at hbb
    exact computeBBox_contains hbb pl hpl p hp

/-- A section with an unset bounding-box cache satisfies cacheOK. -/
lemma cacheOK_of_cache_none {s : Section} (h : s.bbox_cache = none) : s.cacheOK :=
  cacheOK_of_not_cached (by simp [h])

/-- Under cacheOK, a disjoint cached bounding box really excludes every
polyline of the section. -/
lemma sectionHit_false_of_disjoint {s : Section} {bbox sb : BB}
    (hx12 : bbox.x1 ≤ bbox.x2) (hy12 : bbox.y1 ≤ bbox.y2)
    (hOK : s.cacheOK) (hbv : s.bboxValue = some sb) (hdisj : bbDisjoint bbox sb) :
    sectionHit s bbox = false := by
  unfold sectionHit
  rw [List.any_eq_false]
  intro pl hpl
  simpa using polyline_intersects_bbox_false hx12 hy12
    (fun p hp => hOK sb hbv pl hpl p hp) hdisj

/-! ## Dict lemmas and the pre-filter equivalence -/

lemma dictGet_insert {α β : Type} [DecidableEq α]
    (m : List (α × β)) (k k' : α) (v : β) :
    dictGet (dictInsert m k v) k' = if k' = k then some v else dictGet m k' := by
  induction m with
  | nil => simp [dictInsert, dictGet]
  | cons p rest ih =>
    obtain ⟨k0, v0⟩ := p
    simp only [dictInsert]
    by_cases h0 : k0 = k
    · subst h0
      simp only [if_pos rfl, dictGet]
      by_cases h' : k' = k0 <;> simp [h']
    · rw [if_neg h0]
      simp only [dictGet]
      by_cases h' : k' = k0
      · rw [if_pos h', if_neg (fun hk => h0 (h'.symm.trans hk))]
        simp [dictGet, if_pos h']
      · rw [if_neg h', ih]
        by_cases hk : k' = k
        · simp [hk]
        · simp [hk, dictGet, if_neg h']

lemma dictInsert_of_not_mem {α β : Type} [DecidableEq α]
    {m : List (α × β)} {k : α} (v : β) (h : ∀ p ∈ m, p.1 ≠ k) :
    dictInsert m k v = m ++ [(k, v)] := by
  induction m with
  | nil => rfl
  | cons p rest ih =>
    obtain ⟨k0, v0⟩ := p
    have hk0 : k0 ≠ k := h (k0, v0) (List.mem_cons_self _ _)
    simp only [dictInsert, if_neg hk0, List.cons_append, List.cons.injEq, true_and]
    exact ih (fun p hp => h p (List.mem_cons_of_mem _ hp))

/-- Under unique section names the section_bbox_cache dict is just the list
of (name, box) pairs. -/
lemma buildBBoxDict_eq_map (sections : List Section)
    (hnd : (sections.map Section.name).Nodup) :
    buildBBoxDict sections = sections.map (fun s => (s.name, s.bboxValue)) := by
  unfold buildBBoxDict
  suffices h : ∀ (l : List Section) (acc : List (String × Option BB)),
      (l.map Section.name).Nodup → (∀ s ∈ l, ∀ p ∈ acc, p.1 ≠ s.name) →
      l.foldl (fun m s => dictInsert m s.name s.bboxValue) acc =
        acc ++ l.map (fun s => (s.name, s.bboxValue)) by
    simpa using h sections [] hnd (by simp)
  intro l
  induction l with
  | nil => intro acc _ _; simp
  | cons s rest ih =>
    intro acc hnd hdisj
    have hnd' : (s.name :: rest.map Section.name).Nodup := by simpa using hnd
    have h1 : s.name ∉ rest.map Section.name := (List.nodup_cons.mp hnd').1
    have h2 : (rest.map Section.name).Nodup := (List.nodup_cons.mp hnd').2
    simp only [List.foldl_cons]
    rw [dictInsert_of_not_mem _ (fun p hp => hdisj s (List.mem_cons_self _ _) p hp)]
    rw [ih (acc ++ [(s.name, s.bboxValue)]) h2 ?_]
    · simp
    · intro s' hs' p hp
      rcases List.mem_append.mp hp with hpa | hpb
      · exact hdisj s' (List.mem_cons_of_mem _ hs') p hpa
      · simp only [List.mem_singleton] at hpb
        subst hpb
        simp only [ne_eq]
        intro hcontra
        exact h1 (hcontra ▸ List.mem_map.mpr ⟨s', hs', rfl⟩)

/-- Under unique section names, the dict lookup for a member section yields
exactly that section's bounding box value. -/
lemma dictGetFlat_buildBBoxDict {sections : List Section}
    (hnd : (sections.map Section.name).Nodup) {s : Section} (hs : s ∈ sections) :
    dictGetFlat (buildBBoxDict sections) s.name = s.bboxValue := by
  rw [buildBBoxDict_eq_map sections hnd]
  unfold dictGetFlat
  suffices h : dictGet (sections.map (fun s => (s.name, s.bboxValue))) s.name = some s.bboxValue by
    rw [h]; rfl
  induction sections with
  | nil => cases hs
  | cons s0 rest ih =>
    have hnd' : (s0.name :: rest.map Section.name).Nodup := by simpa using hnd
    simp only [List.map_cons, dictGet]
    rcases List.mem_cons.mp hs with rfl | hs'
    · rw [if_pos rfl]
    · have hne : s.name ≠ s0.name := by
        intro hcontra
        exact (List.nodup_cons.mp hnd').1 (hcontra ▸ List.mem_map.mpr ⟨s, hs', rfl⟩)
      rw [if_neg hne]
      exact ih (by simpa using (List.nodup_cons.mp hnd').2) hs'

/-- The optimized scan agrees with the brute-force scan on any section order,
as long as every section's dict entry is its own box value and satisfies
cacheOK, and the detection box is well formed. -/
lemma sectionScan_eq_bruteScan {bbox : BB} {cache : List (String × Option BB)}
    (hx12 : bbox.x1 ≤ bbox.x2) (hy12 : bbox.y1 ≤ bbox.y2) :
    ∀ l : List Section,
      (∀ s ∈ l, dictGetFlat cache s.name = s.bboxValue ∧ s.cacheOK) →
      sectionScan bbox cache l = bruteScan bbox l
  | [], _ => rfl
  | s :: rest, h => by
    obtain ⟨hdict, hOK⟩ := h s (List.mem_cons_self _ _)
    have htail := sectionScan_eq_bruteScan hx12 hy12 rest
      (fun s' hs' => h s' (List.mem_cons_of_mem _ hs'))
    simp only [sectionScan, bruteScan, hdict]
    cases hbv : s.bboxValue with
    | none => simp only [htail]
    | some sb =>
      by_cases hov : bbOverlap bbox sb = true
      · simp only [hov, if_true, htail]
      · have hfalse : sectionHit s bbox = false :=
          sectionHit_false_of_disjoint hx12 hy12 hOK hbv
            ((bbOverlap_false_iff bbox sb).mp (Bool.eq_false_iff.mpr hov))
        simp only [Bool.not_eq_true] at hov
        simp only [hov, if_false, hfalse, Bool.false_eq_true, if_false, htail]

/-! ## Page independence of the assignment scan -/

lemma flatMap_points_map_page (polys : List Polyline) (k : ℤ) :
    (polys.map (fun pl => { pl with page := k })).flatMap Polyline.points =
      polys.flatMap Polyline.points := by
  induction polys with
  | nil => rfl
  | cons pl rest ih => simp [ih]

lemma computeBBox_map_page (polys : List Polyline) (k : ℤ) :
    computeBBox (polys.map (fun pl => { pl with page := k })) = computeBBox polys := by
  unfold computeBBox
  rw [flatMap_points_map_page]

lemma setAllPages_name (s : Section) (k : ℤ) :
    (s.setAllPages k).name = s.name := rfl

lemma setAllPages_bboxValue (s : Section) (k : ℤ) :
    (s.setAllPages k).bboxValue = s.bboxValue := by
  simp only [Section.bboxValue, Section.get_bounding_box, Section.setAllPages,
    apply_ite Prod.snd, List.length_map, computeBBox_map_page]
  have hemp : (s.polylines.map (fun pl => { pl with page := k })).isEmpty = s.polylines.isEmpty := by
    cases s.polylines <;> rfl
  rw [hemp]

lemma sectionHit_setAllPages (s : Section) (k : ℤ) (bbox : BB) :
    sectionHit (s.setAllPages k) bbox = sectionHit s bbox := by
  simp only [sectionHit, Section.setAllPages, List.any_map]
  rfl

lemma buildBBoxDict_setAllPages (sections : List Section) (k : ℤ) :
    buildBBoxDict (sections.map (fun s => s.setAllPages k)) = buildBBoxDict sections := by
  unfold buildBBoxDict
  rw [List.foldl_map]
  suffices h : ∀ (l : List Section) (acc : List (String × Option BB)),
      l.foldl (fun m s => dictInsert m (s.setAllPages k).name (s.setAllPages k).bboxValue) acc =
        l.foldl (fun m s => dictInsert m s.name s.bboxValue) acc from h sections []
  intro l
  induction l with
  | nil => intro acc; rfl
  | cons s rest ih =>
    intro acc
    simp only [List.foldl_cons, setAllPages_bboxValue, setAllPages_name]
    try exact ih _

lemma sectionScan_setAllPages (bbox : BB) (cache : List (String × Option BB)) (k : ℤ) :
    ∀ l : List Section,
      sectionScan bbox cache (l.map (fun s => s.setAllPages k)) = sectionScan bbox cache l
  | [] => rfl
  | s :: rest => by
    simp only [List.map_cons, sectionScan, sectionHit_setAllPages]
    rw [setAllPages_name, sectionScan_setAllPages bbox cache k rest]

/-- Brute-force scan characterised as the first hit of the traversal order. -/
lemma bruteScan_eq_find (bbox : BB) :
    ∀ l : List Section,
      bruteScan bbox l = ((l.find? (fun s => sectionHit s bbox)).map Section.name).getD "Unassigned"
  | [] => rfl
  | s :: rest => by
    by_cases h : sectionHit s bbox = true
    · simp [bruteScan, h, List.find?_cons_of_pos]
    · have h' : sectionHit s bbox = false := Bool.eq_false_iff.mpr h
      simp [bruteScan, h', List.find?_cons_of_neg, bruteScan_eq_find bbox rest]

/-- C1 counterexample: the detection lives on page 1, the only polyline of
section S lives on page 2, yet assign_objects_to_sections assigns the
detection to S (the claim requires the polyline to be excluded, which would
leave the detection Unassigned). -/
theorem c1_page_filter_counterexample :
    pageDet.page_num = 1 ∧ pageSec.polylines.map Polyline.page = [2] ∧
    (assign_objects_to_sections pageWindow).detections.map Detection.section_name = ["S"] ∧
    get_section_for_bbox_optimized pageDet.bbox [pageSec] none = "S" := by decide

/-- C1 (amended): the assignment scan ignores page numbers entirely — moving
every polyline of every section to an arbitrary page never changes the
result, so a polyline is never excluded by page mismatch. -/
theorem c1_pages_ignored (bbox : BB) (sections : List Section) (k : ℤ) :
    get_section_for_bbox_optimized bbox (sections.map (fun s => s.setAllPages k)) none =
      get_section_for_bbox_optimized bbox sections none := by
  unfold get_section_for_bbox_optimized
  simp only [Option.getD_none]
  rw [buildBBoxDict_setAllPages, ← List.map_reverse, sectionScan_setAllPages]

/-- Shared core of C2 and C3: the optimized entry point equals the
brute-force scan under the data-model invariants. -/
lemma optimized_eq_brute (bbox : BB) (sections : List Section)
    (hx : bbox.x1 ≤ bbox.x2) (hy : bbox.y1 ≤ bbox.y2)
    (hnd : (sections.map Section.name).Nodup)
    (hOK : ∀ s ∈ sections, s.cacheOK) :
    get_section_for_bbox_optimized bbox sections none =
      get_section_for_bbox_brute bbox sections := by
  unfold get_section_for_bbox_optimized get_section_for_bbox_brute
  simp only [Option.getD_none]
  apply sectionScan_eq_bruteScan hx hy
  intro s hs
  have hs' : s ∈ sections := List.mem_reverse.mp hs
  exact ⟨dictGetFlat_buildBBoxDict hnd hs', hOK s hs'⟩

/-- C2: with the data-model invariants — pairwise distinct section names and
bounding-box caches that are safe supersets of their polylines (cacheOK) —
the optimized path (bounding-box pre-filter, detailed test for sections
without a box) returns exactly what the brute-force full reverse scan
returns, for every well-formed detection bbox. -/
theorem c2_prefilter_sound (bbox : BB) (sections : List Section)
    (hx : bbox.x1 ≤ bbox.x2) (hy : bbox.y1 ≤ bbox.y2)
    (hnd : (sections.map Section.name).Nodup)
    (hOK : ∀ s ∈ sections, s.cacheOK) :
    get_section_for_bbox_optimized bbox sections none =
      get_section_for_bbox_brute bbox sections :=
  optimized_eq_brute bbox sections hx hy hnd hOK

/-- Witness for c2_prefilter_sound: a concrete overlapping pair of sections
with fresh caches. -/
theorem c2_prefilter_sound_witness :
    get_section_for_bbox_optimized ⟨40, -5, 60, 5⟩
        [⟨"A", none, [⟨[(0, 0), (100, 0)], 1⟩], "red", none, 0⟩,
         ⟨"B", none, [⟨[(0, 3), (100, 3)], 1⟩], "blue", none, 0⟩] none =
      get_section_for_bbox_brute ⟨40, -5, 60, 5⟩
        [⟨"A", none, [⟨[(0, 0), (100, 0)], 1⟩], "red", none, 0⟩,
         ⟨"B", none, [⟨[(0, 3), (100, 3)], 1⟩], "blue", none, 0⟩] :=
  c2_prefilter_sound _ _ (by decide) (by decide) (by decide)
    (by
      intro s hs
      rcases List.mem_cons.mp hs with rfl | hs'
      · exact cacheOK_of_cache_none rfl
      · rcases List.mem_singleton.mp hs' with rfl
        exact cacheOK_of_cache_none rfl)

/-- C3: under the same data-model invariants, assignment scans the section
list in reverse and returns the name of the first section one of whose
polylines intersects the bbox, and the sentinel Unassigned when none does. -/
theorem c3_reverse_first_hit (bbox : BB) (sections : List Section)
    (hx : bbox.x1 ≤ bbox.x2) (hy : bbox.y1 ≤ bbox.y2)
    (hnd : (sections.map Section.name).Nodup)
    (hOK : ∀ s ∈ sections, s.cacheOK) :
    get_section_for_bbox bbox sections =
      ((sections.reverse.find?
          (fun s => s.polylines.any (fun pl => polyline_intersects_bbox pl.points bbox))).map
        Section.name).getD "Unassigned" := by
  unfold get_section_for_bbox
  rw [optimized_eq_brute bbox sections hx hy hnd hOK]
  unfold get_section_for_bbox_brute
  exact bruteScan_eq_find bbox sections.reverse

/-- Witness for c3_reverse_first_hit: two overlapping sections, the
later-added one wins; a far-away bbox is Unassigned. -/
theorem c3_reverse_first_hit_witness :
    get_section_for_bbox ⟨40, -5, 60, 5⟩
        [⟨"A", none, [⟨[(0, 0), (100, 0)], 1⟩], "red", none, 0⟩,
         ⟨"B", none, [⟨[(0, 3), (100, 3)], 1⟩], "blue", none, 0⟩] =
      (([⟨"A", none, [⟨[(0, 0), (100, 0)], 1⟩], "red", none, 0⟩,
         ⟨"B", none, [⟨[(0, 3), (100, 3)], 1⟩], "blue", none, 0⟩].reverse.find?
          (fun s : Section => s.polylines.any
            (fun pl => polyline_intersects_bbox pl.points ⟨40, -5, 60, 5⟩))).map
        Section.name).getD "Unassigned" :=
  c3_reverse_first_hit _ _ (by decide) (by decide) (by decide)
    (by
      intro s hs
      rcases List.mem_cons.mp hs with rfl | hs'
      · exact cacheOK_of_cache_none rfl
      · rcases List.mem_singleton.mp hs' with rfl
        exact cacheOK_of_cache_none rfl)

example :
    get_section_for_bbox ⟨40, -5, 60, 5⟩
        [⟨"A", none, [⟨[(0, 0), (100, 0)], 1⟩], "red", none, 0⟩,
         ⟨"B", none, [⟨[(0, 3), (100, 3)], 1⟩], "blue", none, 0⟩] = "B" := by decide

/-! ## C4: the bounding-box cache under mutation -/

/-- A point list with at least one point always yields a computed box. -/
lemma computeBBox_isSome_of_mem {polys : List Polyline} {pl : Polyline} {p : Point}
    (hpl : pl ∈ polys) (hp : p ∈ pl.points) :
    ∃ bb, computeBBox polys = some bb := by
  have hmem : p ∈ polys.flatMap Polyline.points := List.mem_flatMap.mpr ⟨pl, hpl, hp⟩
  unfold computeBBox
  cases hl : polys.flatMap Polyline.points with
  | nil => rw [hl] at hmem; cases hmem
  | cons p0 rest => exact ⟨_, rfl⟩

/-- C4 counterexample: after a count-preserving in-place mutation the cached
box (0,0,1,1) is returned unchanged, and the current polyline point (10,10)
lies outside it — the returned box is not a superset of the current extents,
so the cache is not invalidated by every structural mutation. -/
theorem c4_stale_cache_counterexample :
    staleSec2.get_bounding_box.2 = some ⟨0, 0, 1, 1⟩ ∧
    (10, 10) ∈ (staleSec2.polylines.flatMap Polyline.points) ∧
    ¬(BB.mk 0 0 1 1).contains (10, 10) := by decide

/-- C4 (amended): the cache-validity check is only the stored polyline
count, so a count-preserving mutation can leave a stale box; after
Section.invalidate_cache (as the mutation sites in the GUI call), the
returned bounding box is freshly computed and contains every point of every
current polyline. -/
theorem c4_invalidate_then_superset (s : Section) (pl : Polyline) (p : Point)
    (hpl : pl ∈ s.polylines) (hp : p ∈ pl.points) :
    ∃ bb, (s.invalidate_cache).get_bounding_box.2 = some bb ∧ bb.contains p := by
  have hne : ¬s.polylines.isEmpty := by
    cases hpoly : s.polylines with
    | nil => rw [hpoly] at hpl; cases hpl
    | cons a rest => simp
  obtain ⟨bb, hbb⟩ := computeBBox_isSome_of_mem hpl hp
  refine ⟨bb, ?_, ?_⟩
  · unfold Section.get_bounding_box Section.invalidate_cache
    rw [if_neg (by simpa using hne), if_neg (by simp)]
    simpa using hbb
  · exact computeBBox_contains hbb pl hpl p hp

/-- Witness for c4_invalidate_then_superset at a concrete section. -/
theorem c4_invalidate_then_superset_witness :
    ∃ bb, (staleSec2.invalidate_cache).get_bounding_box.2 = some bb ∧
      bb.contains (10, 10) :=
  c4_invalidate_then_superset staleSec2 ⟨[(10, 10), (20, 20)], 1⟩ (10, 10)
    (by decide) (by decide)

/-! ## C5: idempotence of assign_objects_to_sections -/

lemma detKey_applyCached (cache : List ((BB × ℤ) × (String × Option String)))
    (d : Detection) : detKey (applyCached cache d) = detKey d := by
  unfold applyCached
  cases dictGet cache (detKey d) <;> rfl

lemma detKey_reassignDet (S : List Section) (bbC : List (String × Option BB))
    (colors : List (String × String)) (d : Detection) :
    detKey (reassignDet S bbC colors d) = detKey d := rfl

lemma detectionsFingerprint_map {f : Detection → Detection}
    (hf : ∀ d, detKey (f d) = detKey d) (l : List Detection) :
    detectionsFingerprint (l.map f) = detectionsFingerprint l := by
  unfold detectionsFingerprint
  rw [List.map_map]
  exact List.map_congr_left (fun d _ => hf d)

lemma applyCached_idem (cache : List ((BB × ℤ) × (String × Option String)))
    (d : Detection) :
    applyCached cache (applyCached cache d) = applyCached cache d := by
  cases h : dictGet cache (d.bbox, d.page_num) with
  | none => simp [applyCached, detKey, h]
  | some nc => simp [applyCached, detKey, h]

lemma applyCached_reassignDet {cache : List ((BB × ℤ) × (String × Option String))}
    {S : List Section} {bbC : List (String × Option BB)} {colors : List (String × String)}
    {d : Detection}
    (h : dictGet cache (detKey d) = some (assignValue S bbC colors d.bbox)) :
    applyCached cache (reassignDet S bbC colors d) = reassignDet S bbC colors d := by
  simp only [detKey] at h
  simp [applyCached, detKey, h, reassignDet]

lemma buildAssignCache_dictGet (S : List Section) (bbC : List (String × Option BB))
    (colors : List (String × String)) :
    ∀ (dets : List Detection) (acc : List ((BB × ℤ) × (String × Option String))),
      (∀ k, dictGet acc k = none ∨ dictGet acc k = some (assignValue S bbC colors k.1)) →
      ∀ k, dictGet (dets.foldl
            (fun c d => dictInsert c (detKey d) (assignValue S bbC colors d.bbox)) acc) k = none ∨
          dictGet (dets.foldl
            (fun c d => dictInsert c (detKey d) (assignValue S bbC colors d.bbox)) acc) k =
            some (assignValue S bbC colors k.1)
  | [], acc, hacc, k => hacc k
  | d :: rest, acc, hacc, k => by
    rw [List.foldl_cons]
    refine buildAssignCache_dictGet S bbC colors rest _ ?_ k
    intro k'
    rw [dictGet_insert]
    by_cases hk : k' = detKey d
    · right
      rw [if_pos hk, hk]
      rfl
    · rw [if_neg hk]
      exact hacc k'

lemma foldl_insert_key_preserved (S : List Section) (bbC : List (String × Option BB))
    (colors : List (String × String)) :
    ∀ (dets : List Detection) (acc : List ((BB × ℤ) × (String × Option String))) (k : BB × ℤ),
      dictGet acc k ≠ none →
      dictGet (dets.foldl
        (fun c d => dictInsert c (detKey d) (assignValue S bbC colors d.bbox)) acc) k ≠ none
  | [], _, _, h => h
  | d :: rest, acc, k, h => by
    rw [List.foldl_cons]
    refine foldl_insert_key_preserved S bbC colors rest _ k ?_
    rw [dictGet_insert]
    by_cases hk : k = detKey d
    · rw [if_pos hk]; simp
    · rw [if_neg hk]; exact h

lemma buildAssignCache_key_mem (S : List Section) (bbC : List (String × Option BB))
    (colors : List (String × String)) :
    ∀ (dets : List Detection) (acc : List ((BB × ℤ) × (String × Option String)))
      (d : Detection), d ∈ dets →
      dictGet (dets.foldl
        (fun c d => dictInsert c (detKey d) (assignValue S bbC colors d.bbox)) acc) (detKey d) ≠ none
  | d0 :: rest, acc, d, hd => by
    rw [List.foldl_cons]
    rcases List.mem_cons.mp hd with rfl | hd'
    · refine foldl_insert_key_preserved S bbC colors rest _ (detKey d) ?_
      rw [dictGet_insert, if_pos rfl]
      simp
    · exact buildAssignCache_key_mem S bbC colors rest _ d hd'

/-- A key present in the repopulated cache always maps to the value the
recompute sweep stores for its bounding box. -/
lemma buildAssignCache_get_mem {S : List Section} {bbC : List (String × Option BB)}
    {colors : List (String × String)} {dets : List Detection} {d : Detection}
    (hd : d ∈ dets) :
    dictGet (buildAssignCache dets S bbC colors) (detKey d) =
      some (assignValue S bbC colors d.bbox) := by
  have h1 := buildAssignCache_dictGet S bbC colors dets []
    (fun k => Or.inl rfl) (detKey d)
  have h2 := buildAssignCache_key_mem S bbC colors dets [] d hd
  unfold buildAssignCache
  rcases h1 with h | h
  · exact absurd h h2
  · exact h

lemma dictInsert_ne_nil {α β : Type} [DecidableEq α]
    (m : List (α × β)) (k : α) (v : β) : dictInsert m k v ≠ [] := by
  cases m with
  | nil => simp [dictInsert]
  | cons p rest =>
    obtain ⟨k0, v0⟩ := p
    simp only [dictInsert]
    split <;> simp

lemma foldl_insert_ne_nil (S : List Section) (bbC : List (String × Option BB))
    (colors : List (String × String)) :
    ∀ (dets : List Detection) (acc : List ((BB × ℤ) × (String × Option String))),
      acc ≠ [] →
      dets.foldl (fun c d => dictInsert c (detKey d) (assignValue S bbC colors d.bbox)) acc ≠ []
  | [], _, h => h
  | d :: rest, acc, _ => by
    rw [List.foldl_cons]
    exact foldl_insert_ne_nil S bbC colors rest _ (dictInsert_ne_nil _ _ _)

lemma buildAssignCache_ne_nil (d : Detection) (dets : List Detection)
    (S : List Section) (bbC : List (String × Option BB)) (colors : List (String × String)) :
    buildAssignCache (d :: dets) S bbC colors ≠ [] := by
  unfold buildAssignCache
  rw [List.foldl_cons]
  exact foldl_insert_ne_nil S bbC colors dets _ (dictInsert_ne_nil _ _ _)

/-- Running assign_objects_to_sections twice from any window state gives the
same state as running it once. -/
lemma assign_objects_idem (w : Window) :
    assign_objects_to_sections (assign_objects_to_sections w) =
      assign_objects_to_sections w := by
  obtain ⟨dets, secs, cache, lsh, ldh⟩ := w
  by_cases h : cacheFresh ⟨dets, secs, cache, lsh, ldh⟩
  · have h1 : cacheFresh ⟨dets.map (applyCached cache), secs, cache, lsh, ldh⟩ := by
      obtain ⟨ha, hb, hc⟩ := h
      exact ⟨ha, by
        simpa [detectionsFingerprint_map (detKey_applyCached cache)] using hb, hc⟩
    simp only [assign_objects_to_sections, if_pos h, if_pos h1]
    simp only [Window.mk.injEq, and_true, true_and, List.map_map]
    exact List.map_congr_left (fun d _ => applyCached_idem cache d)
  · cases hdets : dets with
    | nil =>
      subst hdets
      have h2 : ¬cacheFresh ⟨([] : List Detection).map
          (reassignDet secs (buildBBoxDict secs) (buildColorDict secs)), secs,
          buildAssignCache [] secs (buildBBoxDict secs) (buildColorDict secs),
          some (sectionsFingerprint secs), some (detectionsFingerprint [])⟩ := by
        intro hcon
        exact hcon.2.2 rfl
      simp only [assign_objects_to_sections, if_neg h, if_neg h2]
      rfl
    | cons d0 rest =>
      subst hdets
      have hne := buildAssignCache_ne_nil d0 rest secs (buildBBoxDict secs) (buildColorDict secs)
      have h1 : cacheFresh ⟨(d0 :: rest).map
          (reassignDet secs (buildBBoxDict secs) (buildColorDict secs)), secs,
          buildAssignCache (d0 :: rest) secs (buildBBoxDict secs) (buildColorDict secs),
          some (sectionsFingerprint secs), some (detectionsFingerprint (d0 :: rest))⟩ :=
        ⟨rfl, congrArg some (detectionsFingerprint_map (detKey_reassignDet secs
          (buildBBoxDict secs) (buildColorDict secs)) (d0 :: rest)).symm, hne⟩
      simp only [assign_objects_to_sections, if_neg h, if_pos h1]
      simp only [Window.mk.injEq, and_true, true_and, List.map_map]
      refine List.map_congr_left (fun d hd => ?_)
      exact applyCached_reassignDet (buildAssignCache_get_mem hd)

/-- C5: calling assign_objects_to_sections twice in a row with no
intervening mutation leaves every detection with the same section and color
fields as after the first call, from any starting cache state. -/
theorem c5_assign_idempotent (w : Window) :
    (assign_objects_to_sections (assign_objects_to_sections w)).detections.map
        (fun d => (d.section_name, d.color)) =
      (assign_objects_to_sections w).detections.map
        (fun d => (d.section_name, d.color)) := by
  rw [assign_objects_idem]

/-! ## C6: the lookup policy -/

lemma find?_eq_some_split {α : Type} {p : α → Bool} :
    ∀ {l : List α} {a : α}, l.find? p = some a →
      ∃ l1 l2, l = l1 ++ a :: l2 ∧ p a = true ∧ ∀ x ∈ l1, p x = false
  | x :: rest, a, h => by
    cases hpx : p x with
    | true =>
      rw [List.find?_cons_of_pos _ hpx] at h
      obtain rfl := Option.some.inj h
      exact ⟨[], rest, rfl, hpx, by simp⟩
    | false =>
      rw [List.find?_cons_of_neg _ (by simp [hpx])] at h
      obtain ⟨l1, l2, rfl, hpa, hl1⟩ := find?_eq_some_split h
      refine ⟨x :: l1, l2, rfl, hpa, ?_⟩
      intro y hy
      rcases List.mem_cons.mp hy with rfl | hy'
      · exact hpx
      · exact hl1 y hy'

lemma pyMaxBySize_mem : ∀ (best : FreqRow) (l : List FreqRow),
    pyMaxBySize best l ∈ best :: l
  | best, [] => List.mem_singleton.mpr rfl
  | best, r :: rest => by
    have h := pyMaxBySize_mem (if best.max_size_mm < r.max_size_mm then r else best) rest
    simp only [pyMaxBySize]
    rcases List.mem_cons.mp h with he | hmem
    · rw [he]
      split
      · exact List.mem_cons_of_mem _ (List.mem_cons_self _ _)
      · exact List.mem_cons_self _ _
    · exact List.mem_cons_of_mem _ (List.mem_cons_of_mem _ hmem)

lemma pyMaxBySize_ge : ∀ (best : FreqRow) (l : List FreqRow),
    ∀ r ∈ best :: l, r.max_size_mm ≤ (pyMaxBySize best l).max_size_mm
  | best, [], r, hr => by
    rcases List.mem_singleton.mp hr with rfl
    exact le_rfl
  | best, x :: rest, r, hr => by
    have hbest : best.max_size_mm ≤
        (if best.max_size_mm < x.max_size_mm then x else best).max_size_mm := by
      split
      · next hlt => exact le_of_lt hlt
      · exact le_rfl
    have hx : x.max_size_mm ≤
        (if best.max_size_mm < x.max_size_mm then x else best).max_size_mm := by
      split
      · exact le_rfl
      · next hnlt => exact le_of_not_lt hnlt
    have ih := pyMaxBySize_ge (if best.max_size_mm < x.max_size_mm then x else best) rest
    have hhead := ih _ (List.mem_cons_self _ _)
    simp only [pyMaxBySize]
    rcases List.mem_cons.mp hr with rfl | hr'
    · exact hbest.trans hhead
    · rcases List.mem_cons.mp hr' with rfl | hr''
      · exact hx.trans hhead
      · exact ih r (List.mem_cons_of_mem _ hr'')

/-- Reduction of lookup once the candidate list is known to be a cons. -/
lemma lookup_cons (rows : List FreqRow) (c : String) (v : ℚ) (c0 : FreqRow)
    (crest : List FreqRow) (hc : candidatesFor rows (some c) = c0 :: crest) :
    FrequencyTable.lookup rows (some c) (some v) =
      match (c0 :: crest).find?
          (fun r => decide (r.min_size_mm ≤ v) && decide (v ≤ r.max_size_mm)) with
      | some r => .ok (some r)
      | none => .ok (some (pyMaxBySize c0 crest)) := by
  unfold FrequencyTable.lookup
  rw [hc]

/-- C6: for a category with at least one candidate row, lookup returns the
first candidate whose [min_size_mm, max_size_mm] interval contains the line
size; when no candidate interval contains it, it returns a candidate
carrying the largest max_size_mm, never an error. -/
theorem c6_lookup_policy (rows : List FreqRow) (c : String) (v : ℚ)
    (h : candidatesFor rows (some c) ≠ []) :
    ∃ r, FrequencyTable.lookup rows (some c) (some v) = .ok (some r) ∧
      ((∃ l1 l2, candidatesFor rows (some c) = l1 ++ r :: l2 ∧
          (r.min_size_mm ≤ v ∧ v ≤ r.max_size_mm) ∧
          ∀ r' ∈ l1, ¬(r'.min_size_mm ≤ v ∧ v ≤ r'.max_size_mm)) ∨
        ((∀ r' ∈ candidatesFor rows (some c), ¬(r'.min_size_mm ≤ v ∧ v ≤ r'.max_size_mm)) ∧
          r ∈ candidatesFor rows (some c) ∧
          ∀ r' ∈ candidatesFor rows (some c), r'.max_size_mm ≤ r.max_size_mm)) := by
  cases hc : candidatesFor rows (some c) with
  | nil => exact absurd hc h
  | cons c0 crest =>
    rw [lookup_cons rows c v c0 crest hc]
    cases hf : (c0 :: crest).find?
        (fun r => decide (r.min_size_mm ≤ v) && decide (v ≤ r.max_size_mm)) with
    | some r =>
      refine ⟨r, rfl, Or.inl ?_⟩
      obtain ⟨l1, l2, hsplit, hpr, hl1⟩ := find?_eq_some_split hf
      refine ⟨l1, l2, hsplit, ?_, ?_⟩
      · simpa [Bool.and_eq_true, decide_eq_true_eq] using hpr
      · intro r' hr'
        simpa [Bool.and_eq_true, decide_eq_true_eq] using hl1 r' hr'
    | none =>
      refine ⟨pyMaxBySize c0 crest, rfl, Or.inr ⟨?_, ?_, ?_⟩⟩
      · intro r' hr'
        have := List.find?_eq_none.mp hf r' hr'
        simpa [Bool.and_eq_true, decide_eq_true_eq] using this
      · exact pyMaxBySize_mem c0 crest
      · exact pyMaxBySize_ge c0 crest

/-- Witness for c6_lookup_policy: the spec scenario with brackets [0,20] and
[20,50] at line size 25. -/
theorem c6_lookup_policy_witness :
    ∃ r, FrequencyTable.lookup mvRows (some "Manual Valves") (some 25) = .ok (some r) ∧
      ((∃ l1 l2, candidatesFor mvRows (some "Manual Valves") = l1 ++ r :: l2 ∧
          (r.min_size_mm ≤ 25 ∧ (25 : ℚ) ≤ r.max_size_mm) ∧
          ∀ r' ∈ l1, ¬(r'.min_size_mm ≤ 25 ∧ (25 : ℚ) ≤ r'.max_size_mm)) ∨
        ((∀ r' ∈ candidatesFor mvRows (some "Manual Valves"),
            ¬(r'.min_size_mm ≤ 25 ∧ (25 : ℚ) ≤ r'.max_size_mm)) ∧
          r ∈ candidatesFor mvRows (some "Manual Valves") ∧
          ∀ r' ∈ candidatesFor mvRows (some "Manual Valves"),
            r'.max_size_mm ≤ r.max_size_mm)) :=
  c6_lookup_policy mvRows "Manual Valves" 25 (by decide)

example :
    FrequencyTable.lookup mvRows (some "Manual Valves") (some 25) =
      .ok (some ⟨"Manual Valves", 20, 50, 6, 7, 8, 9, 10⟩) := by decide

example :
    FrequencyTable.lookup [⟨"Manual Valves", 150, 1000, 1, 2, 3, 4, 5⟩]
      (some "Manual Valves") (some 500) =
      .ok (some ⟨"Manual Valves", 150, 1000, 1, 2, 3, 4, 5⟩) := by decide

/-! ## C7 and C10: aggregation failure modes -/

lemma exceptFoldl_error_of_mem {α β ε : Type} (step : β → α → Except ε β) :
    ∀ (l : List α) (acc : β) (a : α), a ∈ l →
      (∀ acc', ∃ e, step acc' a = .error e) →
      ∃ e, exceptFoldl step acc l = .error e
  | x :: rest, acc, a, ha, hstep => by
    rcases List.mem_cons.mp ha with rfl | ha'
    · obtain ⟨e, he⟩ := hstep acc
      exact ⟨e, by simp [exceptFoldl, he]⟩
    · cases hx : step acc x with
      | error e => exact ⟨e, by simp [exceptFoldl, hx]⟩
      | ok acc' =>
        obtain ⟨e, he⟩ := exceptFoldl_error_of_mem step rest acc' a ha' hstep
        exact ⟨e, by simp [exceptFoldl, hx, he]⟩

lemma exceptMapM_error_of_mem {α β ε : Type} (f : α → Except ε β) :
    ∀ (l : List α) (a : α), a ∈ l → (∃ e, f a = .error e) →
      ∃ e', exceptMapM f l = .error e'
  | x :: rest, a, ha, hfa => by
    rcases List.mem_cons.mp ha with rfl | ha'
    · obtain ⟨e, he⟩ := hfa
      exact ⟨e, by simp [exceptMapM, he]⟩
    · cases hx : f x with
      | error e0 => exact ⟨e0, by simp [exceptMapM, hx]⟩
      | ok b =>
        obtain ⟨e', he'⟩ := exceptMapM_error_of_mem f rest a ha' hfa
        exact ⟨e', by simp [exceptMapM, hx, he']⟩

lemma dictGet_mem {α β : Type} [DecidableEq α] :
    ∀ {m : List (α × β)} {k : α} {v : β}, dictGet m k = some v → (k, v) ∈ m
  | (k0, v0) :: rest, k, v, h => by
    by_cases hk : k = k0
    · subst hk
      simp only [dictGet, if_pos rfl] at h
      obtain rfl := Option.some.inj h
      exact List.mem_cons_self _ _
    · simp only [dictGet, if_neg hk] at h
      exact List.mem_cons_of_mem _ (dictGet_mem h)

/-- lookup with an empty candidate list returns Python None. -/
lemma lookup_empty {rows : List FreqRow} {cat : Option String}
    (hc : candidatesFor rows cat = []) (ls : Option ℚ) :
    FrequencyTable.lookup rows cat ls = .ok none := by
  unfold FrequencyTable.lookup
  rw [hc]

/-- lookup with candidates present and a None line size raises TypeError at
the first range comparison. -/
lemma lookup_none_line_size {rows : List FreqRow} {cat : Option String}
    {c0 : FreqRow} {crest : List FreqRow}
    (hc : candidatesFor rows cat = c0 :: crest) :
    FrequencyTable.lookup rows cat none = .error .typeError := by
  unfold FrequencyTable.lookup
  rw [hc]

lemma processSection_error_of_det {rows : List FreqRow} {catOf : String → Option String}
    {dets : List Detection} {nm : String} {sec : Section} {d : Detection}
    (hd : d ∈ dets) (hsec : d.section_name = nm)
    (hstep : ∀ acc, ∃ e, processDet rows catOf sec acc d = .error e) :
    ∃ e, processSection rows catOf dets (nm, sec) = .error e := by
  have hmem : d ∈ dets.filter (fun d' => d'.section_name == nm) :=
    List.mem_filter.mpr ⟨hd, by simp [hsec]⟩
  obtain ⟨e, he⟩ := exceptFoldl_error_of_mem (processDet rows catOf sec) _ Freqs.zero d hmem hstep
  exact ⟨e, by simp [processSection, he]⟩

/-- C10: a detection with no line-size override whose owning section also
has no line size, but whose category has candidate rows, makes the
aggregation raise: the lookup comparison against the None line size raises
TypeError at that detection, and the whole call surfaces an error instead
of returning a result. -/
theorem c10_none_line_size_fails (sections : List Section) (dets : List Detection)
    (rows : List FreqRow) (catOf : String → Option String) (d : Detection) (sec : Section)
    (hd : d ∈ dets)
    (hsec : dictGet (sectionMapEntries sections) d.section_name = some sec)
    (hover : d.line_size = none) (hsecls : sec.line_size = none)
    (hcand : candidatesFor rows (catOf d.name) ≠ []) :
    (∀ acc, processDet rows catOf sec acc d = .error .typeError) ∧
    ∃ e, calculate_section_frequencies sections dets rows catOf = .error e := by
  obtain ⟨c0, crest, hc⟩ : ∃ c0 crest, candidatesFor rows (catOf d.name) = c0 :: crest := by
    cases hcc : candidatesFor rows (catOf d.name) with
    | nil => exact absurd hcc hcand
    | cons c0 crest => exact ⟨c0, crest, rfl⟩
  have hls : (match d.line_size with | some v => some v | none => sec.line_size) =
      (none : Option ℚ) := by rw [hover, hsecls]
  have hstep : ∀ acc, processDet rows catOf sec acc d = .error .typeError := by
    intro acc
    unfold processDet
    rw [hls, lookup_none_line_size hc]
  refine ⟨hstep, ?_⟩
  exact exceptMapM_error_of_mem _ _ (d.section_name, sec) (dictGet_mem hsec)
    (processSection_error_of_det hd rfl (fun acc => ⟨_, hstep acc⟩))

/-- C7 (amended): a detection whose resolved category has zero candidate
rows makes the aggregation fail with an explicit surfaced error rather than
being silently skipped, but the raised ValueError carries the fixed message
of the underlying None subscription and does not name the category. -/
theorem c7_missing_category_error (sections : List Section) (dets : List Detection)
    (rows : List FreqRow) (catOf : String → Option String) (d : Detection) (sec : Section)
    (hd : d ∈ dets)
    (hsec : dictGet (sectionMapEntries sections) d.section_name = some sec)
    (hcand : candidatesFor rows (catOf d.name) = []) :
    (∀ acc, processDet rows catOf sec acc d = .error (.valueError noneSubscriptMsg)) ∧
    ∃ e, calculate_section_frequencies sections dets rows catOf = .error e := by
  have hstep : ∀ acc, processDet rows catOf sec acc d =
      .error (.valueError noneSubscriptMsg) := by
    intro acc
    unfold processDet
    rw [lookup_empty hcand]
  refine ⟨hstep, ?_⟩
  exact exceptMapM_error_of_mem _ _ (d.section_name, sec) (dictGet_mem hsec)
    (processSection_error_of_det hd rfl (fun acc => ⟨_, hstep acc⟩))

/-- C7 counterexample: two aggregation runs whose only difference is the
(unmapped) category produce the very same error value, the wrapped NoneType
subscription ValueError — so the surfaced error does not name the unmapped
category. -/
theorem c7_error_counterexample :
    calculate_section_frequencies [c7Sec] [c7DetFoo] c7Rows catIdentity =
      .error (.valueError noneSubscriptMsg) ∧
    calculate_section_frequencies [c7Sec] [c7DetBar] c7Rows catIdentity =
      .error (.valueError noneSubscriptMsg) ∧
    catIdentity c7DetFoo.name ≠ catIdentity c7DetBar.name := by decide

/-- Witness for c7_missing_category_error at the concrete run above. -/
theorem c7_missing_category_error_witness :
    (∀ acc, processDet c7Rows catIdentity c7Sec acc c7DetFoo =
      .error (.valueError noneSubscriptMsg)) ∧
    ∃ e, calculate_section_frequencies [c7Sec] [c7DetFoo] c7Rows catIdentity = .error e :=
  c7_missing_category_error [c7Sec] [c7DetFoo] c7Rows catIdentity c7DetFoo c7Sec
    (by decide) (by decide) (by decide)

/-- Witness for c10_none_line_size_fails at a concrete run. -/
theorem c10_none_line_size_fails_witness :
    (∀ acc, processDet c7Rows catMV c10Sec acc c10Det = .error .typeError) ∧
    ∃ e, calculate_section_frequencies [c10Sec] [c10Det] c7Rows catMV = .error e :=
  c10_none_line_size_fails [c10Sec] [c10Det] c7Rows catMV c10Det c10Sec
    (by decide) (by decide) (by decide) (by decide) (by decide)

lemma exceptFoldl_processDet_total (rows : List FreqRow) (catOf : String → Option String)
    (sec : Section) :
    ∀ (group : List Detection) (acc f : Freqs),
      exceptFoldl (processDet rows catOf sec) acc group = .ok f →
      f.total = acc.total + (group.map (contribWith rows catOf sec)).sum
  | [], acc, f, h => by
    simp only [exceptFoldl, Except.ok.injEq] at h
    subst h
    simp
  | d :: rest, acc, f, h => by
    simp only [exceptFoldl] at h
    cases hstep : processDet rows catOf sec acc d with
    | error e => rw [hstep] at h; cases h
    | ok acc' =>
      rw [hstep] at h
      have ih := exceptFoldl_processDet_total rows catOf sec rest acc' f h
      unfold processDet at hstep
      cases hlook : FrequencyTable.lookup rows (catOf d.name)
          (match d.line_size with | some v => some v | none => sec.line_size) with
      | error e => rw [hlook] at hstep; cases hstep
      | ok o =>
        rw [hlook] at hstep
        cases o with
        | none => cases hstep
        | some r =>
          obtain rfl := Except.ok.inj hstep
          have hcontrib : contribWith rows catOf sec d =
              (r.tiny + r.small + r.medium + r.large + r.fbr) * d.count := by
            unfold contribWith
            rw [hlook]
          rw [ih, List.map_cons, List.sum_cons, hcontrib]
          simp only [Freqs.total, Freqs.addScaled]
          ring

lemma processSection_ok_total {rows : List FreqRow} {catOf : String → Option String}
    {dets : List Detection} {nm : String} {sec : Section} {row : ResultRow}
    (h : processSection rows catOf dets (nm, sec) = .ok row) :
    row.total = ((dets.filter (fun d => d.section_name == nm)).map
      (contribWith rows catOf sec)).sum := by
  simp only [processSection] at h
  cases hfold : exceptFoldl (processDet rows catOf sec) Freqs.zero
      (dets.filter (fun d => d.section_name == nm)) with
  | error e => rw [hfold] at h; cases h
  | ok f =>
    rw [hfold] at h
    obtain rfl := Except.ok.inj h
    have := exceptFoldl_processDet_total rows catOf sec _ Freqs.zero f hfold
    simpa [Freqs.total, Freqs.zero] using this

lemma exceptMapM_processSection_totals {rows : List FreqRow}
    {catOf : String → Option String} {dets : List Detection} :
    ∀ (entries : List (String × Section)) (rs : List ResultRow),
      exceptMapM (processSection rows catOf dets) entries = .ok rs →
      rs.map ResultRow.total =
        entries.map (fun e => ((dets.filter (fun d => d.section_name == e.1)).map
          (contribWith rows catOf e.2)).sum)
  | [], rs, h => by
    simp only [exceptMapM, Except.ok.injEq] at h
    subst h
    rfl
  | e0 :: rest, rs, h => by
    obtain ⟨nm, sec⟩ := e0
    simp only [exceptMapM] at h
    cases h1 : processSection rows catOf dets (nm, sec) with
    | error e => rw [h1] at h; cases h
    | ok row =>
      rw [h1] at h
      cases h2 : exceptMapM (processSection rows catOf dets) rest with
      | error e => rw [h2] at h; cases h
      | ok rs' =>
        rw [h2] at h
        obtain rfl := Except.ok.inj h
        have ih := exceptMapM_processSection_totals rest rs' h2
        simp only [List.map_cons, ih, processSection_ok_total h1]

lemma mem_keys_dictInsert {α β : Type} [DecidableEq α] :
    ∀ (m : List (α × β)) (k x : α) (v : β),
      (x ∈ (dictInsert m k v).map Prod.fst ↔ x ∈ m.map Prod.fst ∨ x = k)
  | [], k, x, v => by simp [dictInsert]
  | (k0, v0) :: rest, k, x, v => by
    by_cases h0 : k0 = k
    · subst h0
      simp [dictInsert]
      tauto
    · simp only [dictInsert, if_neg h0, List.map_cons, List.mem_cons,
        mem_keys_dictInsert rest k x v]
      tauto

lemma keys_nodup_dictInsert {α β : Type} [DecidableEq α] :
    ∀ {m : List (α × β)} (k : α) (v : β), ((m.map Prod.fst).Nodup) →
      (((dictInsert m k v).map Prod.fst).Nodup)
  | [], k, v, _ => by simp [dictInsert]
  | (k0, v0) :: rest, k, v, hnd => by
    rw [List.map_cons] at hnd
    have hh := List.nodup_cons.mp hnd
    by_cases h0 : k0 = k
    · subst h0
      simp [dictInsert, List.nodup_cons]
      constructor
      · intro b hcon
        exact hh.1 (List.mem_map.mpr ⟨(k0, b), hcon, rfl⟩)
      · exact hh.2
    · simp only [dictInsert, if_neg h0, List.map_cons, List.nodup_cons]
      refine ⟨?_, keys_nodup_dictInsert k v hh.2⟩
      intro hcon
      rcases (mem_keys_dictInsert rest k k0 v).mp hcon with hmem | heq
      · exact hh.1 hmem
      · exact h0 heq

lemma mem_keys_foldl_sections :
    ∀ (l : List Section) (acc : List (String × Section)) (x : String),
      (x ∈ ((l.foldl (fun m s => dictInsert m s.name s) acc).map Prod.fst) ↔
        x ∈ acc.map Prod.fst ∨ ∃ s ∈ l, s.name = x)
  | [], acc, x => by simp
  | s0 :: rest, acc, x => by
    rw [List.foldl_cons, mem_keys_foldl_sections rest _ x, mem_keys_dictInsert]
    constructor
    · rintro ((h | h) | h)
      · exact Or.inl h
      · exact Or.inr ⟨s0, List.mem_cons_self _ _, h.symm⟩
      · obtain ⟨s, hs, hname⟩ := h
        exact Or.inr ⟨s, List.mem_cons_of_mem _ hs, hname⟩
    · rintro (h | ⟨s, hs, hname⟩)
      · exact Or.inl (Or.inl h)
      · rcases List.mem_cons.mp hs with rfl | hs'
        · exact Or.inl (Or.inr hname.symm)
        · exact Or.inr ⟨s, hs', hname⟩

lemma mem_keys_sectionMapEntries (sections : List Section) (x : String) :
    x ∈ (sectionMapEntries sections).map Prod.fst ↔ ∃ s ∈ sections, s.name = x := by
  unfold sectionMapEntries
  rw [mem_keys_foldl_sections]
  simp

lemma keys_nodup_foldl_sections :
    ∀ (l : List Section) (acc : List (String × Section)),
      ((acc.map Prod.fst).Nodup) →
      (((l.foldl (fun m s => dictInsert m s.name s) acc).map Prod.fst).Nodup)
  | [], _, h => h
  | s0 :: rest, acc, h => by
    rw [List.foldl_cons]
    exact keys_nodup_foldl_sections rest _ (keys_nodup_dictInsert s0.name s0 h)

lemma sectionMapEntries_keys_nodup (sections : List Section) :
    ((sectionMapEntries sections).map Prod.fst).Nodup :=
  keys_nodup_foldl_sections sections [] (by simp)

lemma dictGet_of_mem_keys_nodup {α β : Type} [DecidableEq α] :
    ∀ {m : List (α × β)}, ((m.map Prod.fst).Nodup) →
      ∀ {k : α} {v : β}, (k, v) ∈ m → dictGet m k = some v
  | (k0, v0) :: rest, hnd, k, v, hm => by
    rw [List.map_cons] at hnd
    have hh := List.nodup_cons.mp hnd
    rcases List.mem_cons.mp hm with heq | hm'
    · obtain ⟨rfl, rfl⟩ := Prod.mk.inj heq
      simp [dictGet]
    · have hne : k ≠ k0 := by
        intro hcon
        subst hcon
        exact hh.1 (List.mem_map.mpr ⟨(k, v), hm', rfl⟩)
      simp only [dictGet, if_neg hne]
      exact dictGet_of_mem_keys_nodup hh.2 hm'

lemma sum_map_add {α : Type} (f g : α → ℚ) :
    ∀ l : List α, (l.map (fun x => f x + g x)).sum = (l.map f).sum + (l.map g).sum
  | [] => by simp
  | x :: rest => by
    simp only [List.map_cons, List.sum_cons, sum_map_add f g rest]
    ring

lemma sum_if_single_key (x : String) (c : ℚ) :
    ∀ (keys : List String), keys.Nodup →
      (keys.map (fun k => if x = k then c else 0)).sum = if x ∈ keys then c else 0
  | [], _ => by simp
  | k0 :: krest, hnd => by
    have hh := List.nodup_cons.mp hnd
    by_cases hx : x = k0
    · subst hx
      have hzero : ∀ q ∈ krest.map (fun k => if x = k then c else 0), q = 0 := by
        intro q hq
        obtain ⟨k, hk, rfl⟩ := List.mem_map.mp hq
        have hne : ¬x = k := by
          intro hcon
          subst hcon
          exact hh.1 hk
        rw [if_neg hne]
      simp [List.sum_eq_zero hzero]
    · simp only [List.map_cons, List.sum_cons, if_neg hx, zero_add,
        sum_if_single_key x c krest hh.2, List.mem_cons]
      by_cases hmem : x ∈ krest
      · rw [if_pos hmem, if_pos (Or.inr hmem)]
      · rw [if_neg hmem, if_neg (by rintro (h | h) <;> [exact hx h; exact hmem h])]

lemma filter_cons_map_sum (p : Detection → Bool) (g : Detection → ℚ)
    (d : Detection) (rest : List Detection) :
    (((d :: rest).filter p).map g).sum =
      (if p d then g d else 0) + ((rest.filter p).map g).sum := by
  cases hp : p d <;> simp [List.filter_cons, hp]

lemma sum_entries_filter (g : Detection → ℚ) (entries : List (String × Section))
    (hnd : ((entries.map Prod.fst).Nodup)) :
    ∀ dets : List Detection,
      (entries.map (fun e => ((dets.filter (fun d => d.section_name == e.1)).map g).sum)).sum =
        ((dets.filter (fun d => entries.any (fun e => d.section_name == e.1))).map g).sum
  | [] => by
    have hzero : ∀ q ∈ entries.map
        (fun e => ((([] : List Detection).filter (fun d => d.section_name == e.1)).map g).sum),
        q = 0 := by
      intro q hq
      obtain ⟨e, _, rfl⟩ := List.mem_map.mp hq
      simp
    simp [List.sum_eq_zero hzero]
  | d :: rest => by
    have hsingle :
        (entries.map (fun e => if d.section_name == e.1 then g d else 0)).sum =
          if entries.any (fun e => d.section_name == e.1) then g d else 0 := by
      have hmm : entries.map (fun e => if d.section_name == e.1 then g d else 0) =
          (entries.map Prod.fst).map (fun k => if d.section_name = k then g d else 0) := by
        rw [List.map_map]
        exact List.map_congr_left (fun e _ => by simp [beq_iff_eq])
      rw [hmm, sum_if_single_key _ _ _ hnd]
      by_cases hmem : d.section_name ∈ entries.map Prod.fst
      · rw [if_pos hmem, if_pos]
        obtain ⟨e, he, hke⟩ := List.mem_map.mp hmem
        exact List.any_eq_true.mpr ⟨e, he, by simp [hke.symm]⟩
      · rw [if_neg hmem, if_neg]
        intro hcon
        obtain ⟨e, he, hbe⟩ := List.any_eq_true.mp hcon
        exact hmem (List.mem_map.mpr ⟨e, he, (beq_iff_eq.mp hbe).symm⟩)
    calc (entries.map (fun e =>
            (((d :: rest).filter (fun d' => d'.section_name == e.1)).map g).sum)).sum
        = (entries.map (fun e => (if d.section_name == e.1 then g d else 0) +
            ((rest.filter (fun d' => d'.section_name == e.1)).map g).sum)).sum := by
          refine congrArg List.sum (List.map_congr_left (fun e _ => ?_))
          exact filter_cons_map_sum _ g d rest
      _ = (entries.map (fun e => if d.section_name == e.1 then g d else 0)).sum +
            (entries.map (fun e =>
              ((rest.filter (fun d' => d'.section_name == e.1)).map g).sum)).sum :=
          sum_map_add _ _ entries
      _ = (if entries.any (fun e => d.section_name == e.1) then g d else 0) +
            ((rest.filter (fun d' => entries.any (fun e => d'.section_name == e.1))).map g).sum := by
          rw [hsingle, sum_entries_filter g entries hnd rest]
      _ = (((d :: rest).filter (fun d' => entries.any (fun e => d'.section_name == e.1))).map g).sum :=
          (filter_cons_map_sum (fun d' => entries.any (fun e => d'.section_name == e.1))
            g d rest).symm

lemma entry_filter_contrib (sections : List Section) (rows : List FreqRow)
    (catOf : String → Option String) (dets : List Detection) {e : String × Section}
    (he : e ∈ sectionMapEntries sections) :
    (dets.filter (fun d => d.section_name == e.1)).map (contribWith rows catOf e.2) =
      (dets.filter (fun d => d.section_name == e.1)).map (detContrib rows catOf sections) := by
  refine List.map_congr_left (fun d hd => ?_)
  have hdsec : d.section_name = e.1 := by
    simpa [beq_iff_eq] using (List.mem_filter.mp hd).2
  have hget : dictGet (sectionMapEntries sections) e.1 = some e.2 := by
    obtain ⟨nm, sec⟩ := e
    exact dictGet_of_mem_keys_nodup (sectionMapEntries_keys_nodup sections) he
  unfold detContrib
  rw [hdsec, hget]

/-- C8: in a successful aggregation call, the sum of the total column over
all returned rows equals the sum, over all detections whose section_name
matches some section's name, of that detection's five-bucket sum times its
count; detections matching no section contribute nothing. -/
theorem c8_total_conservation (sections : List Section) (dets : List Detection)
    (rows : List FreqRow) (catOf : String → Option String) (resRows : List ResultRow)
    (h : calculate_section_frequencies sections dets rows catOf = .ok resRows) :
    (resRows.map ResultRow.total).sum =
      ((dets.filter (fun d => sections.any (fun s => s.name == d.section_name))).map
        (detContrib rows catOf sections)).sum := by
  have h1 := exceptMapM_processSection_totals (sectionMapEntries sections) resRows h
  rw [h1]
  have h2 : (sectionMapEntries sections).map
        (fun e => ((dets.filter (fun d => d.section_name == e.1)).map
          (contribWith rows catOf e.2)).sum) =
      (sectionMapEntries sections).map
        (fun e => ((dets.filter (fun d => d.section_name == e.1)).map
          (detContrib rows catOf sections)).sum) :=
    List.map_congr_left (fun e he =>
      congrArg List.sum (entry_filter_contrib sections rows catOf dets he))
  rw [h2, sum_entries_filter (detContrib rows catOf sections) (sectionMapEntries sections)
    (sectionMapEntries_keys_nodup sections) dets]
  refine congrArg List.sum (congrArg (List.map (detContrib rows catOf sections)) ?_)
  refine List.filter_congr (fun d _ => ?_)
  by_cases hmem : ∃ s ∈ sections, s.name = d.section_name
  · obtain ⟨s, hs, hname⟩ := hmem
    have hl : (sectionMapEntries sections).any (fun e => d.section_name == e.1) = true := by
      have hk : d.section_name ∈ (sectionMapEntries sections).map Prod.fst :=
        (mem_keys_sectionMapEntries sections d.section_name).mpr ⟨s, hs, hname⟩
      obtain ⟨e, he, hke⟩ := List.mem_map.mp hk
      exact List.any_eq_true.mpr ⟨e, he, by simp [hke]⟩
    have hr : sections.any (fun s => s.name == d.section_name) = true :=
      List.any_eq_true.mpr ⟨s, hs, by simp [hname]⟩
    rw [hl, hr]
  · have hl : (sectionMapEntries sections).any (fun e => d.section_name == e.1) = false := by
      rw [List.any_eq_false]
      intro e he hcon
      refine hmem ?_
      refine (mem_keys_sectionMapEntries sections d.section_name).mp ?_
      exact List.mem_map.mpr ⟨e, he, (beq_iff_eq.mp hcon).symm⟩
    have hr : sections.any (fun s => s.name == d.section_name) = false := by
      rw [List.any_eq_false]
      intro s hs hcon
      exact hmem ⟨s, hs, beq_iff_eq.mp hcon⟩
    rw [hl, hr]

/-- Witness for c8_total_conservation: applies the theorem at a concrete
successful run (one section, two grouped detections, one stray). -/
theorem c8_total_conservation_witness :
    ([(⟨"P", 8, 11, 14, 17, 20, 70⟩ : ResultRow)].map ResultRow.total).sum =
      (([c8Det1, c8Det2, c8DetStray].filter
          (fun d => [c8Sec].any (fun s => s.name == d.section_name))).map
        (detContrib mvRows catMV [c8Sec])).sum := by
  have hl1 : FrequencyTable.lookup mvRows (some "Manual Valves") (some 10) =
      .ok (some ⟨"Manual Valves", 0, 20, 1, 2, 3, 4, 5⟩) := by decide
  have hl2 : FrequencyTable.lookup mvRows (some "Manual Valves") (some 25) =
      .ok (some ⟨"Manual Valves", 20, 50, 6, 7, 8, 9, 10⟩) := by decide
  have hok : calculate_section_frequencies [c8Sec] [c8Det1, c8Det2, c8DetStray] mvRows catMV =
      .ok [⟨"P", 8, 11, 14, 17, 20, 70⟩] := by
    simp only [calculate_section_frequencies, sectionMapEntries, List.foldl_cons,
      List.foldl_nil, dictInsert, exceptMapM, processSection, c8Sec, c8Det1, c8Det2,
      c8DetStray, catMV, List.filter_cons, List.filter_nil, exceptFoldl, processDet,
      hl1, hl2, Freqs.addScaled, Freqs.zero, Freqs.total]
    norm_num
  exact c8_total_conservation [c8Sec] [c8Det1, c8Det2, c8DetStray] mvRows catMV _ hok

/-! ## C9: the geometry kernel contract -/

lemma mem_polylineSegs_iff :
    ∀ (l : List Point) (a b : Point),
      ((a, b) ∈ polylineSegs l ↔ ∃ i, l.get? i = some a ∧ l.get? (i + 1) = some b)
  | [], a, b => by
    simp only [polylineSegs, List.not_mem_nil, false_iff, not_exists, not_and]
    intro i h
    simp [List.get?_nil] at h
  | [p], a, b => by
    simp only [polylineSegs, List.not_mem_nil, false_iff, not_exists, not_and]
    intro i h1 h2
    cases i <;> simp [List.get?] at h2
  | p :: q :: rest, a, b => by
    simp only [polylineSegs, List.mem_cons, Prod.mk.injEq]
    rw [mem_polylineSegs_iff (q :: rest) a b]
    constructor
    · rintro (⟨rfl, rfl⟩ | ⟨i, h1, h2⟩)
      · exact ⟨0, rfl, rfl⟩
      · exact ⟨i + 1, h1, h2⟩
    · rintro ⟨i, h1, h2⟩
      cases i with
      | zero =>
        left
        exact ⟨(Option.some.inj h1).symm, (Option.some.inj h2).symm⟩
      | succ j => right; exact ⟨j, h1, h2⟩

/-- C9: the geometry kernel contract.  segment_intersects_rect holds exactly
when the segment has a bounded (proper, non-collinear) intersection with one
of the four rectangle edges or one endpoint lies inclusively inside the
rectangle; polyline_intersects_bbox is false for fewer than two points and
otherwise holds exactly when some consecutive segment intersects the box. -/
theorem c9_geometry_kernel :
    (∀ (p1 p2 : Point) (x1 y1 x2 y2 : ℤ), x1 ≤ x2 → y1 ≤ y2 →
      (segment_intersects_rect p1 p2 x1 y1 x2 y2 = true ↔
        (∃ e ∈ rectEdges x1 y1 x2 y2, boundedCross p1 p2 e.1 e.2) ∨
        (x1 ≤ p1.1 ∧ p1.1 ≤ x2 ∧ y1 ≤ p1.2 ∧ p1.2 ≤ y2) ∨
        (x1 ≤ p2.1 ∧ p2.1 ≤ x2 ∧ y1 ≤ p2.2 ∧ p2.2 ≤ y2))) ∧
    (∀ (points : List Point) (bb : BB), points.length < 2 →
      polyline_intersects_bbox points bb = false) ∧
    (∀ (points : List Point) (bb : BB),
      (polyline_intersects_bbox points bb = true ↔
        ∃ i a b, points.get? i = some a ∧ points.get? (i + 1) = some b ∧
          segment_intersects_rect a b bb.x1 bb.y1 bb.x2 bb.y2 = true)) := by
  refine ⟨?_, ?_, ?_⟩
  · intro p1 p2 x1 y1 x2 y2 _ _
    simp only [segment_intersects_rect, Bool.or_eq_true, List.any_eq_true,
      decide_eq_true_eq, boundedIntersection_iff_cross]
    exact or_assoc
  · intro points bb hlen
    unfold polyline_intersects_bbox
    rw [if_pos hlen]
  · intro points bb
    by_cases hlen : points.length < 2
    · unfold polyline_intersects_bbox
      rw [if_pos hlen]
      simp only [Bool.false_eq_true, false_iff, not_exists, not_and]
      intro i a b h1 h2 hcon
      obtain ⟨hlt, -⟩ := List.get?_eq_some.mp h2
      omega
    · unfold polyline_intersects_bbox
      rw [if_neg hlen, List.any_eq_true]
      constructor
      · rintro ⟨⟨a, b⟩, hmem, hsat⟩
        obtain ⟨i, h1, h2⟩ := (mem_polylineSegs_iff points a b).mp hmem
        exact ⟨i, a, b, h1, h2, hsat⟩
      · rintro ⟨i, a, b, h1, h2, hsat⟩
        exact ⟨(a, b), (mem_polylineSegs_iff points a b).mpr ⟨i, h1, h2⟩, hsat⟩

/-- Witness for c9_geometry_kernel at concrete inputs: a diagonal segment
against the unit-offset square, the empty polyline, and a two-point
polyline. -/
theorem c9_geometry_kernel_witness :
    ((segment_intersects_rect (0, 0) (2, 2) 1 1 3 3 = true ↔
        (∃ e ∈ rectEdges 1 1 3 3, boundedCross (0, 0) (2, 2) e.1 e.2) ∨
        ((1 : ℤ) ≤ 0 ∧ (0 : ℤ) ≤ 3 ∧ (1 : ℤ) ≤ 0 ∧ (0 : ℤ) ≤ 3) ∨
        ((1 : ℤ) ≤ 2 ∧ (2 : ℤ) ≤ 3 ∧ (1 : ℤ) ≤ 2 ∧ (2 : ℤ) ≤ 3)) ∧
      polyline_intersects_bbox [(5, 5)] ⟨0, 0, 9, 9⟩ = false) ∧
    (polyline_intersects_bbox [(0, 0), (2, 2)] ⟨1, 1, 3, 3⟩ = true ↔
      ∃ i a b, [((0 : ℤ), (0 : ℤ)), (2, 2)].get? i = some a ∧
        [((0 : ℤ), (0 : ℤ)), (2, 2)].get? (i + 1) = some b ∧
        segment_intersects_rect a b 1 1 3 3 = true) :=
  ⟨⟨c9_geometry_kernel.1 (0, 0) (2, 2) 1 1 3 3 (by decide) (by decide),
    c9_geometry_kernel.2.1 [(5, 5)] ⟨0, 0, 9, 9⟩ (by decide)⟩,
    c9_geometry_kernel.2.2 [(0, 0), (2, 2)] ⟨1, 1, 3, 3⟩⟩
